import Mathlib

/-!
Verification of the Raft consensus core (savarin/raft) against its
natural-language specification.

The Python sources are shallowly embedded:

* `raftlog.py`    — `LogEntry`, `is_equal_entry`, `append_entries`
  (mutating list code becomes state-passing; Python negative indexing and
  slicing semantics are modelled by `pyGet`, `pyDelFrom`, `pySliceFrom`;
  a Python `IndexError` is modelled by an `Option.none` result).
* `rafthelpers.py` — `encode_item` / `decode_item` over a `PyVal` type
  modelling the Python values that appear in messages; the decoder's
  recursion is modelled with explicit fuel (the Python code can loop
  forever on some malformed inputs), a raised `DecodeError` becomes the
  `malformed` outcome and any other uncaught Python exception
  (e.g. `AttributeError` from a failed `re.match`) becomes `pyerror`.
* `raftstate.py`  — `RaftState` and its message handlers; Python dicts
  become insertion-ordered association lists; a raised exception or a
  failed `assert` becomes an `Option.none` result.
* `raftrole.py` is imported by `raftstate.py` but is not part of the
  provided sources; `enumerate_state_change` and the `Role`/`Operation`/
  `StateChange` types are modelled from the specification (§4.3).
-/

namespace Raft

/-! ## raftlog.py -/

/-- `LogEntry` from raftlog.py: a `(term, item)` pair. -/
structure LogEntry where
  term : Int
  item : String
deriving DecidableEq, Repr

/-- Python `l[i]` for `i : Int`: non-negative indices read from the front,
negative indices wrap from the back, and an out-of-range access (which
raises `IndexError` in Python) is `none`. -/
def pyGet (l : List LogEntry) (i : Int) : Option LogEntry :=
  if 0 ≤ i then l[i.toNat]?
  else if -i ≤ (l.length : Int) then l[((l.length : Int) + i).toNat]?
  else none

/-- Python `del l[n:]` for `n : Int` (slice bounds clamp, never raising). -/
def pyDelFrom (l : List LogEntry) (n : Int) : List LogEntry :=
  if 0 ≤ n then l.take n.toNat
  else l.take (max 0 ((l.length : Int) + n)).toNat

/-- Python `l[k:]` for `k : Int` (slice bounds clamp, never raising). -/
def pySliceFrom (l : List LogEntry) (k : Int) : List LogEntry :=
  if 0 ≤ k then l.drop k.toNat
  else l.drop (max 0 ((l.length : Int) + k)).toNat

/-- `is_equal_entry` from raftlog.py:
`if previous_index < len(log) - 1 and log[previous_index + 1] != entry:
return False; return True`.  `none` models the `IndexError` that Python
raises when `previous_index + 1` is below `-len(log)`. -/
def is_equal_entry (log : List LogEntry) (previous_index : Int)
    (entry : LogEntry) : Option Bool :=
  if previous_index < (log.length : Int) - 1 then
    match pyGet log (previous_index + 1) with
    | some e => some (decide (e = entry))
    | none => none
  else
    some true

/-- The first loop of `append_entries`: `for n, entry in
enumerate(entries, start=previous_index + 1): if n < len(log) and
log[n].term != entry.term: del log[n:]; break`.  Returns the (possibly
truncated) log; `none` models an `IndexError`. -/
def truncScan (log : List LogEntry) : Int → List LogEntry → Option (List LogEntry)
  | _, [] => some log
  | n, entry :: rest =>
    if n < (log.length : Int) then
      match pyGet log n with
      | none => none
      | some e =>
        if e.term ≠ entry.term then some (pyDelFrom log n)
        else truncScan log (n + 1) rest
    else truncScan log (n + 1) rest

/-- The second loop of `append_entries`: `for i, entry in
enumerate(entries): if not is_equal_entry(log, previous_index + i, entry):
return False`.  Returns whether every offered entry passed the check;
`none` models an `IndexError`. -/
def equalScan (log : List LogEntry) (previous_index : Int) :
    Nat → List LogEntry → Option Bool
  | _, [] => some true
  | i, entry :: rest =>
    match is_equal_entry log (previous_index + i) entry with
    | none => none
    | some false => some false
    | some true => equalScan log previous_index (i + 1) rest

/-- The body of `append_entries` after its two early `return False` exits:
conflict scan, per-entry equality check, then the graft
`log += entries[len(log) - previous_index - 1:]`. -/
def append_entries_main (log : List LogEntry) (previous_index : Int)
    (entries : List LogEntry) : Option (Bool × List LogEntry) :=
  match truncScan log (previous_index + 1) entries with
  | none => none
  | some logT =>
    match equalScan logT previous_index 0 entries with
    | none => none
    | some false => some (false, logT)
    | some true =>
      some (true, logT ++ pySliceFrom entries ((logT.length : Int) - previous_index - 1))

/-- `append_entries` from raftlog.py.  The returned pair is
`(return value, final contents of the mutated log)`; `none` models an
uncaught `IndexError`. -/
def append_entries (log : List LogEntry) (previous_index previous_term : Int)
    (entries : List LogEntry) : Option (Bool × List LogEntry) :=
  if (log.length : Int) ≤ previous_index then some (false, log)
  else if 0 ≤ previous_index then
    match pyGet log previous_index with
    | none => none
    | some e =>
      if e.term ≠ previous_term then some (false, log)
      else append_entries_main log previous_index entries
  else append_entries_main log previous_index entries

/-! ### Specification-level description of `append_entries` (used to state
the claims about its success path) -/

/-- The truncation the spec describes: walking offered positions
`p1, p1+1, …`, cut the log at the first position whose existing term
conflicts with the offered entry's term; leave it whole if none does. -/
def specTrunc (log : List LogEntry) : Nat → List LogEntry → List LogEntry
  | _, [] => log
  | p, e :: rest =>
    match log[p]? with
    | some le => if le.term ≠ e.term then log.take p else specTrunc log (p + 1) rest
    | none => log

/-- Every offered entry that overlaps an existing position (from `p1`)
equals the existing entry there (term and item). -/
def specOverlapOK (log : List LogEntry) : Nat → List LogEntry → Bool
  | _, [] => true
  | p, e :: rest =>
    (match log[p]? with
     | some le => decide (le = e)
     | none => true) && specOverlapOK log (p + 1) rest

/-! ### Lemmas relating the embedded loops to the spec-level description -/

theorem specTrunc_of_length_le (entries : List LogEntry) (log : List LogEntry)
    (p : Nat) (h : log.length ≤ p) : specTrunc log p entries = log := by
  induction entries generalizing p with
  | nil => rfl
  | cons e rest ih =>
    have hnone : log[p]? = none := List.getElem?_eq_none h
    simp only [specTrunc, hnone]

theorem pyGet_coe (l : List LogEntry) (n : Nat) : pyGet l (n : Int) = l[n]? := by
  simp [pyGet]

theorem truncScan_eq_spec (entries : List LogEntry) (log : List LogEntry) (p1 : Nat) :
    truncScan log (p1 : Int) entries = some (specTrunc log p1 entries) := by
  induction entries generalizing p1 with
  | nil => rfl
  | cons e rest ih =>
    have hcast : (p1 : Int) + 1 = ((p1 + 1 : Nat) : Int) := by push_cast; ring
    by_cases hp : p1 < log.length
    · obtain ⟨le, hle⟩ : ∃ le, log[p1]? = some le := by
        have := List.getElem?_eq_some_iff.mpr ⟨hp, rfl⟩
        exact ⟨_, this⟩
      have hguard : ((p1 : Int) < (log.length : Int)) := by exact_mod_cast hp
      have hpy : pyGet log (p1 : Int) = some le := by rw [pyGet_coe, hle]
      by_cases ht : le.term = e.term
      · rw [show truncScan log (p1 : Int) (e :: rest)
              = truncScan log ((p1 : Int) + 1) rest by
            simp [truncScan, hguard, hpy, ht]]
        rw [hcast, ih]
        simp [specTrunc, hle, ht]
      · have hdel : pyDelFrom log (p1 : Int) = log.take p1 := by
          simp [pyDelFrom]
        rw [show truncScan log (p1 : Int) (e :: rest) = some (pyDelFrom log (p1 : Int)) by
            simp [truncScan, hguard, hpy, ht]]
        simp [specTrunc, hle, ht, hdel]
    · have hguard : ¬ ((p1 : Int) < (log.length : Int)) := by exact_mod_cast hp
      have hnone : log[p1]? = none := List.getElem?_eq_none (by omega)
      rw [show truncScan log (p1 : Int) (e :: rest) = truncScan log ((p1 : Int) + 1) rest by
          simp [truncScan, hguard]]
      rw [hcast, ih]
      simp only [specTrunc, hnone]
      rw [specTrunc_of_length_le _ _ _ (by omega)]

theorem equalScan_eq_spec (entries : List LogEntry) (log : List LogEntry)
    (prev : Int) (p1 i : Nat) (hp : prev + 1 = (p1 : Int)) :
    equalScan log prev i entries = some (specOverlapOK log (p1 + i) entries) := by
  induction entries generalizing i with
  | nil => rfl
  | cons e rest ih =>
    by_cases hlt : p1 + i < log.length
    · obtain ⟨le, hle⟩ : ∃ le, log[p1 + i]? = some le := by
        have := List.getElem?_eq_some_iff.mpr ⟨hlt, rfl⟩
        exact ⟨_, this⟩
      have hguard : prev + (i : Int) < (log.length : Int) - 1 := by omega
      have hidx : prev + (i : Int) + 1 = ((p1 + i : Nat) : Int) := by push_cast; omega
      have hpy : pyGet log (prev + (i : Int) + 1) = some le := by
        rw [hidx, pyGet_coe, hle]
      by_cases heq : le = e
      · rw [show equalScan log prev i (e :: rest) = equalScan log prev (i + 1) rest by
            simp [equalScan, is_equal_entry, hguard, hpy, heq]]
        have := ih (i + 1)
        rw [show p1 + (i + 1) = (p1 + i) + 1 by omega] at this
        rw [this]
        simp [specOverlapOK, hle, heq]
      · rw [show equalScan log prev i (e :: rest) = some false by
            simp [equalScan, is_equal_entry, hguard, hpy, heq]]
        simp [specOverlapOK, hle, heq]
    · have hguard : ¬ (prev + (i : Int) < (log.length : Int) - 1) := by omega
      have hnone : log[p1 + i]? = none := List.getElem?_eq_none (by omega)
      simp only [equalScan, is_equal_entry, hguard, if_neg, not_false_eq_true]
      have := ih (i + 1)
      rw [show p1 + (i + 1) = (p1 + i) + 1 by omega] at this
      simp only [specOverlapOK, hnone, Bool.true_and]
      simpa using this

theorem specTrunc_length_ge (entries : List LogEntry) (log : List LogEntry)
    (p1 p : Nat) (h1 : p1 ≤ p) (h2 : p1 ≤ log.length) :
    p1 ≤ (specTrunc log p entries).length := by
  induction entries generalizing p with
  | nil => exact h2
  | cons e rest ih =>
    simp only [specTrunc]
    cases hle : log[p]? with
    | none => exact h2
    | some le =>
      by_cases ht : le.term = e.term
      · simpa [ht] using ih (p + 1) (by omega)
      · have hplen : p < log.length := by
          rcases List.getElem?_eq_some_iff.mp hle with ⟨h, _⟩
          exact h
        simp only [ht, ne_eq, not_false_eq_true, if_pos, List.length_take]
        omega

theorem specTrunc_getElem?_lt (entries : List LogEntry) (log : List LogEntry)
    (p j : Nat) (h : j < p) : (specTrunc log p entries)[j]? = log[j]? := by
  induction entries generalizing p with
  | nil => rfl
  | cons e rest ih =>
    simp only [specTrunc]
    cases hle : log[p]? with
    | none => rfl
    | some le =>
      by_cases ht : le.term = e.term
      · simpa [ht] using ih (p + 1) (by omega)
      · simp [ht, List.getElem?_take_of_lt h]

theorem specOverlapOK_spec (entries : List LogEntry) (log : List LogEntry)
    (p : Nat) (h : specOverlapOK log p entries = true) :
    ∀ i e le, entries[i]? = some e → log[p + i]? = some le → le = e := by
  induction entries generalizing p with
  | nil => intro i e le hi; simp at hi
  | cons e0 rest ih =>
    intro i e le hi hl
    simp only [specOverlapOK, Bool.and_eq_true] at h
    cases i with
    | zero =>
      simp only [List.getElem?_cons_zero, Option.some.injEq] at hi
      subst hi
      rw [show p + 0 = p by omega] at hl
      rw [hl] at h
      simpa using h.1
    | succ i =>
      simp only [List.getElem?_cons_succ] at hi
      exact ih (p + 1) h.2 i e le hi (by rw [show p + 1 + i = p + (i + 1) by omega]; exact hl)

theorem specOverlapOK_of (entries : List LogEntry) (log : List LogEntry)
    (p : Nat) (h : ∀ i e le, entries[i]? = some e → log[p + i]? = some le → le = e) :
    specOverlapOK log p entries = true := by
  induction entries generalizing p with
  | nil => rfl
  | cons e0 rest ih =>
    simp only [specOverlapOK, Bool.and_eq_true]
    constructor
    · cases hle : log[p]? with
      | none => rfl
      | some le =>
        have := h 0 e0 le (by simp) (by rw [show p + 0 = p by omega]; exact hle)
        simp [this]
    · exact ih (p + 1) (fun i e le hi hl =>
        h (i + 1) e le (by simpa using hi)
          (by rw [show p + (i + 1) = p + 1 + i by omega]; exact hl))

theorem specTrunc_eq_self_of (entries : List LogEntry) (log : List LogEntry)
    (p : Nat)
    (h : ∀ i e le, entries[i]? = some e → log[p + i]? = some le → le.term = e.term) :
    specTrunc log p entries = log := by
  induction entries generalizing p with
  | nil => rfl
  | cons e0 rest ih =>
    simp only [specTrunc]
    cases hle : log[p]? with
    | none => rfl
    | some le =>
      have hterm := h 0 e0 le (by simp) (by rw [show p + 0 = p by omega]; exact hle)
      have hrest : specTrunc log (p + 1) rest = log :=
        ih (p + 1) (fun i e le' hi hl =>
          h (i + 1) e le' (by simpa using hi)
            (by rw [show p + (i + 1) = p + 1 + i by omega]; exact hl))
      simp [hterm, hrest]

/-- Full characterisation of `append_entries` once the two early checks pass
(`previous_index = (p1 : Int) - 1` with `0 ≤ p1 ≤ len(log)` and, when
`previous_index ≥ 0`, a matching previous term): the log is truncated at the
first term conflict, then either some offered entry disagrees with the
surviving same-position entry and the call returns `False`, or the suffix of
`entries` past the surviving overlap is appended and the call returns
`True`. -/
theorem append_entries_char (log : List LogEntry) (pt : Int) (entries : List LogEntry)
    (p1 : Nat) (hlen : p1 ≤ log.length)
    (hcont : ∀ e, 1 ≤ p1 → log[p1 - 1]? = some e → e.term = pt) :
    append_entries log ((p1 : Int) - 1) pt entries =
      (if specOverlapOK (specTrunc log p1 entries) p1 entries
       then some (true, specTrunc log p1 entries
                    ++ entries.drop ((specTrunc log p1 entries).length - p1))
       else some (false, specTrunc log p1 entries)) := by
  have hmain : append_entries_main log ((p1 : Int) - 1) entries =
      (if specOverlapOK (specTrunc log p1 entries) p1 entries
       then some (true, specTrunc log p1 entries
                    ++ entries.drop ((specTrunc log p1 entries).length - p1))
       else some (false, specTrunc log p1 entries)) := by
    have htr : truncScan log ((p1 : Int) - 1 + 1) entries
        = some (specTrunc log p1 entries) := by
      rw [show (p1 : Int) - 1 + 1 = (p1 : Int) by ring]
      exact truncScan_eq_spec entries log p1
    have heq : equalScan (specTrunc log p1 entries) ((p1 : Int) - 1) 0 entries
        = some (specOverlapOK (specTrunc log p1 entries) p1 entries) := by
      have := equalScan_eq_spec entries (specTrunc log p1 entries)
        ((p1 : Int) - 1) p1 0 (by ring)
      simpa using this
    have hTlen : p1 ≤ (specTrunc log p1 entries).length :=
      specTrunc_length_ge entries log p1 p1 le_rfl hlen
    have hslice : pySliceFrom entries
        (((specTrunc log p1 entries).length : Int) - ((p1 : Int) - 1) - 1)
        = entries.drop ((specTrunc log p1 entries).length - p1) := by
      have h0 : (0 : Int) ≤ ((specTrunc log p1 entries).length : Int) - ((p1 : Int) - 1) - 1 := by
        omega
      have h1 : (((specTrunc log p1 entries).length : Int) - ((p1 : Int) - 1) - 1).toNat
          = (specTrunc log p1 entries).length - p1 := by omega
      simp only [pySliceFrom, h0, if_pos, h1]
    simp only [append_entries_main, htr, heq]
    cases specOverlapOK (specTrunc log p1 entries) p1 entries with
    | true => simp [hslice]
    | false => simp
  have hbound : ¬ ((log.length : Int) ≤ (p1 : Int) - 1) := by omega
  by_cases hpos : (0 : Int) ≤ (p1 : Int) - 1
  · have hp1 : 1 ≤ p1 := by omega
    obtain ⟨e, he⟩ : ∃ e, log[p1 - 1]? = some e := by
      have : p1 - 1 < log.length := by omega
      exact ⟨_, List.getElem?_eq_some_iff.mpr ⟨this, rfl⟩⟩
    have hpy : pyGet log ((p1 : Int) - 1) = some e := by
      rw [show ((p1 : Int) - 1) = ((p1 - 1 : Nat) : Int) by omega, pyGet_coe, he]
    have hterm : e.term = pt := hcont e hp1 he
    simp only [append_entries, hbound, if_neg, not_false_eq_true, hpos, if_pos, hpy,
      hterm, ne_eq, not_true_eq_false, hmain]
  · simp only [append_entries, hbound, if_neg, not_false_eq_true, hpos, hmain]

/-- C1, amended, positive part packaged for arbitrary `previous_index ≥ -1`. -/
theorem append_entries_char' (log : List LogEntry) (prev pt : Int)
    (entries : List LogEntry) (h1 : -1 ≤ prev) (h2 : prev < (log.length : Int))
    (hcont : ∀ e, 0 ≤ prev → pyGet log prev = some e → e.term = pt) :
    append_entries log prev pt entries =
      (if specOverlapOK (specTrunc log (prev + 1).toNat entries) (prev + 1).toNat entries
       then some (true, specTrunc log (prev + 1).toNat entries
            ++ entries.drop ((specTrunc log (prev + 1).toNat entries).length - (prev + 1).toNat))
       else some (false, specTrunc log (prev + 1).toNat entries)) := by
  have hp : prev = (((prev + 1).toNat : Nat) : Int) - 1 := by omega
  have hlen : (prev + 1).toNat ≤ log.length := by omega
  have hcont' : ∀ e, 1 ≤ (prev + 1).toNat → log[(prev + 1).toNat - 1]? = some e → e.term = pt := by
    intro e hge he
    refine hcont e (by omega) ?_
    rw [show prev = (((prev + 1).toNat - 1 : Nat) : Int) by omega, pyGet_coe, he]
  calc append_entries log prev pt entries
      = append_entries log ((((prev + 1).toNat : Nat) : Int) - 1) pt entries := by rw [← hp]
    _ = _ := append_entries_char log pt entries (prev + 1).toNat hlen hcont'

/-! ### Claim C1 -/

/-- C1 (counterexample): with `log = [LogEntry(1, 'a')]`, `previous_index = -1`,
`previous_term = 0` and `entries = [LogEntry(1, 'b')]`, both early checks pass
(`-1 < len(log)` and `-1 < 0` skips the continuity check), no offered position
has a conflicting *term*, so by the claim the call should graft and return
true; the code instead returns false (the `is_equal_entry` pass rejects a
same-term entry whose item differs), leaving the log unchanged.  This refutes
C1 as stated. -/
theorem C1_counterexample :
    ¬ ((([LogEntry.mk 1 "a"].length : Int)) ≤ -1)
    ∧ ¬ ((0 : Int) ≤ -1)
    ∧ append_entries [LogEntry.mk 1 "a"] (-1) 0 [LogEntry.mk 1 "b"]
        = some (false, [LogEntry.mk 1 "a"]) := by
  refine ⟨by norm_num, by norm_num, by decide⟩

/-- C1 (amended): for every `previous_index ≥ -1` (the only values callers
pass; below `-1` Python's negative-index semantics take over),
`append_entries` returns false when `previous_index ≥ len(log)`, and false
when `previous_index ≥ 0` and `log[previous_index].term ≠ previous_term`;
otherwise it truncates the log at the first offered position whose existing
term conflicts with the offered entry's term, and then either some offered
entry differs from the surviving entry at its position — in which case it
returns false (leaving the truncated log) — or it grafts the suffix of
`entries` not already present starting at `previous_index + 1` and returns
true. -/
theorem C1_append_entries_contract (log : List LogEntry) (prev pt : Int)
    (entries : List LogEntry) (h1 : -1 ≤ prev) :
    ((log.length : Int) ≤ prev → append_entries log prev pt entries = some (false, log))
    ∧ (prev < (log.length : Int) →
        ∀ e, 0 ≤ prev → pyGet log prev = some e → e.term ≠ pt →
          append_entries log prev pt entries = some (false, log))
    ∧ (prev < (log.length : Int) →
        (∀ e, 0 ≤ prev → pyGet log prev = some e → e.term = pt) →
        append_entries log prev pt entries =
          (if specOverlapOK (specTrunc log (prev + 1).toNat entries) (prev + 1).toNat entries
           then some (true, specTrunc log (prev + 1).toNat entries
                ++ entries.drop ((specTrunc log (prev + 1).toNat entries).length - (prev + 1).toNat))
           else some (false, specTrunc log (prev + 1).toNat entries))) := by
  refine ⟨?_, ?_, ?_⟩
  · intro h
    simp [append_entries, h]
  · intro h2 e hpos hget hne
    simp [append_entries, (by omega : ¬ ((log.length : Int) ≤ prev)), hpos, hget, hne]
  · intro h2 hcont
    exact append_entries_char' log prev pt entries h1 h2 hcont

/-- Witness for C1: a concrete successful graft (seeding position 0 then
appending a new entry), obtained from the amended contract. -/
theorem C1_append_entries_contract_witness :
    append_entries [LogEntry.mk 1 "a"] (-1) 0 [LogEntry.mk 1 "a", LogEntry.mk 2 "b"]
      = some (true, [LogEntry.mk 1 "a", LogEntry.mk 2 "b"]) := by
  have h := (C1_append_entries_contract [LogEntry.mk 1 "a"] (-1) 0
      [LogEntry.mk 1 "a", LogEntry.mk 2 "b"] (by norm_num)).2.2
      (by norm_num) (fun e hpos _ => absurd hpos (by norm_num))
  rw [h]
  decide

/-! ### Claim C9 -/

/-- C9: the two early failure exits of `append_entries` — `previous_index ≥
len(log)`, and `previous_index ≥ 0` with `log[previous_index].term ≠
previous_term` — return false with the log exactly as it was (they run before
any truncation or append). -/
theorem C9_failed_checks_preserve_log (log : List LogEntry) (prev pt : Int)
    (entries : List LogEntry) :
    ((log.length : Int) ≤ prev → append_entries log prev pt entries = some (false, log))
    ∧ (prev < (log.length : Int) → 0 ≤ prev →
        ∀ e, pyGet log prev = some e → e.term ≠ pt →
          append_entries log prev pt entries = some (false, log)) := by
  constructor
  · intro h
    simp [append_entries, h]
  · intro h2 hpos e hget hne
    simp [append_entries, (by omega : ¬ ((log.length : Int) ≤ prev)), hpos, hget, hne]

/-- Witness for C9: both failure exits at concrete inputs (bounds failure at
`previous_index = 5` on a one-entry log; continuity failure at
`previous_index = 0` with mismatched previous term). -/
theorem C9_failed_checks_preserve_log_witness :
    append_entries [LogEntry.mk 1 "a"] 5 0 [LogEntry.mk 2 "b"]
        = some (false, [LogEntry.mk 1 "a"])
    ∧ append_entries [LogEntry.mk 1 "a"] 0 7 [LogEntry.mk 2 "b"]
        = some (false, [LogEntry.mk 1 "a"]) :=
  ⟨(C9_failed_checks_preserve_log [LogEntry.mk 1 "a"] 5 0 [LogEntry.mk 2 "b"]).1
      (by norm_num),
   (C9_failed_checks_preserve_log [LogEntry.mk 1 "a"] 0 7 [LogEntry.mk 2 "b"]).2
      (by norm_num) (by norm_num) (LogEntry.mk 1 "a") (by decide) (by decide)⟩

/-! ### Claim C4 -/

/-- C4 (counterexample): the claim quantifies over *every* log and
`previous_index` and asserts both calls return true; with an empty log and
`previous_index = 0` the very first call already returns false (bounds
check), refuting the claim as stated. -/
theorem C4_counterexample :
    append_entries ([] : List LogEntry) 0 0 [] = some (false, [])
    ∧ (false : Bool) ≠ true := by
  exact ⟨by decide, by decide⟩

/-- C4 (amended): for `previous_index ≥ -1`, whenever a call to
`append_entries` succeeds (returns true, producing `log'`), repeating the
identical call on the resulting log succeeds again and leaves the log
bit-identical. -/
theorem C4_append_entries_idempotent (log log' : List LogEntry) (prev pt : Int)
    (entries : List LogEntry) (h1 : -1 ≤ prev)
    (h2 : append_entries log prev pt entries = some (true, log')) :
    append_entries log' prev pt entries = some (true, log') := by
  have hb : ¬ ((log.length : Int) ≤ prev) := by
    intro h
    rw [(by simp [append_entries, h] :
      append_entries log prev pt entries = some (false, log))] at h2
    simp at h2
  have hcont : ∀ e, 0 ≤ prev → pyGet log prev = some e → e.term = pt := by
    intro e hpos hget
    by_contra hne
    rw [(by simp [append_entries, hb, hpos, hget, hne] :
      append_entries log prev pt entries = some (false, log))] at h2
    simp at h2
  have hchar := append_entries_char' log prev pt entries h1 (by omega) hcont
  rw [hchar] at h2
  set p1 := (prev + 1).toNat with hp1def
  have hp1 : (p1 : Int) = prev + 1 := by omega
  set logT := specTrunc log p1 entries with hlogT
  by_cases hov : specOverlapOK logT p1 entries = true
  case neg =>
    rw [if_neg hov] at h2
    simp at h2
  rw [if_pos hov] at h2
  have hlog' : log' = logT ++ entries.drop (logT.length - p1) := by
    have := Option.some.inj h2
    exact (congrArg Prod.snd this).symm
  have hTlen : p1 ≤ logT.length := by
    rw [hlogT]
    exact specTrunc_length_ge entries log p1 p1 le_rfl (by omega)
  have hOv := specOverlapOK_spec entries logT p1 hov
  have hF : ∀ i e, entries[i]? = some e → log'[p1 + i]? = some e := by
    intro i e hi
    by_cases hin : p1 + i < logT.length
    · rw [hlog', List.getElem?_append_left hin]
      obtain ⟨le, hle⟩ : ∃ le, logT[p1 + i]? = some le :=
        ⟨_, List.getElem?_eq_some_iff.mpr ⟨hin, rfl⟩⟩
      rw [hle, hOv i e le hi hle]
    · rw [hlog', List.getElem?_append_right (by omega), List.getElem?_drop,
        show (logT.length - p1) + (p1 + i - logT.length) = i by omega]
      exact hi
  have hlen' : log'.length = logT.length + (entries.length - (logT.length - p1)) := by
    rw [hlog']
    simp [List.length_append, List.length_drop]
  have hge : p1 ≤ log'.length := by omega
  have hb2 : prev < (log'.length : Int) := by omega
  have hcont' : ∀ e, 0 ≤ prev → pyGet log' prev = some e → e.term = pt := by
    intro e hpos hget
    have hidx : prev = ((p1 - 1 : Nat) : Int) := by omega
    have h1p : 1 ≤ p1 := by omega
    have hA : log'[p1 - 1]? = logT[p1 - 1]? := by
      rw [hlog']
      exact List.getElem?_append_left (by omega)
    have hB : logT[p1 - 1]? = log[p1 - 1]? := by
      rw [hlogT]
      exact specTrunc_getElem?_lt entries log p1 (p1 - 1) (by omega)
    apply hcont e hpos
    rw [hidx, pyGet_coe] at hget ⊢
    rw [hA, hB] at hget
    exact hget
  have hchar2 := append_entries_char' log' prev pt entries h1 hb2 hcont'
  have hself : specTrunc log' p1 entries = log' := by
    apply specTrunc_eq_self_of
    intro i e le hi hl
    rw [hF i e hi] at hl
    rw [Option.some.inj hl]
  have hov2 : specOverlapOK log' p1 entries = true := by
    apply specOverlapOK_of
    intro i e le hi hl
    rw [hF i e hi] at hl
    exact (Option.some.inj hl).symm
  have hdrop : entries.drop (log'.length - p1) = [] := by
    apply List.drop_eq_nil_of_le
    omega
  rw [hchar2, ← hp1def, hself, if_pos hov2, hdrop, List.append_nil]

/-- Witness for C4: repeating the concrete successful graft of the C1
witness leaves the log bit-identical and returns true again. -/
theorem C4_append_entries_idempotent_witness :
    append_entries [LogEntry.mk 1 "a", LogEntry.mk 2 "b"] (-1) 0
        [LogEntry.mk 1 "a", LogEntry.mk 2 "b"]
      = some (true, [LogEntry.mk 1 "a", LogEntry.mk 2 "b"]) :=
  C4_append_entries_idempotent [LogEntry.mk 1 "a"]
    [LogEntry.mk 1 "a", LogEntry.mk 2 "b"] (-1) 0
    [LogEntry.mk 1 "a", LogEntry.mk 2 "b"] (by norm_num) (by decide)

/-! ## rafthelpers.py — the wire codec

Python values appearing in messages are modelled by `PyVal`; Python `dict`s
become insertion-ordered association lists.  Strings are lists of characters
(`len` and slicing in the Python code count characters). -/

/-- The Python values handled by `encode_item` / `decode_item`. -/
inductive PyVal where
  | none
  | int (n : Int)
  | str (s : List Char)
  | list (l : List PyVal)
  | dict (d : List (PyVal × PyVal))

abbrev Chars := List Char

/-- Decimal digits, fuel-indexed so that it computes by reduction (the fuel
`n + 1` in `encodeNat` always suffices: a number has at most `n + 1`
digits). -/
def encodeNatGo : Nat → Nat → Chars
  | 0, _ => []
  | fuel + 1, n =>
    if n < 10 then [Nat.digitChar n]
    else encodeNatGo fuel (n / 10) ++ [Nat.digitChar (n % 10)]

/-- Decimal digits of `n`, exactly Python `str(n)` for `n : Nat`. -/
def encodeNat (n : Nat) : Chars := encodeNatGo (n + 1) n

/-- Python `str(n)` for `n : Int`: a `-` sign followed by decimal digits. -/
def encodeInt (n : Int) : Chars :=
  if n < 0 then '-' :: encodeNat (-n).toNat else encodeNat n.toNat

/-- Decimal value of a digit string (what Python `int(...)` computes on the
digit part of the decoder's regex matches). -/
def parseNat (l : Chars) : Nat :=
  l.foldl (fun a c => 10 * a + (c.toNat - '0'.toNat)) 0

/-- The string encoding `f"len(s):s"` shared by `encode_item`'s `str` case
and the keys emitted in the `dict` case. -/
def encodeStr (s : Chars) : Chars := encodeNat s.length ++ ':' :: s

/-- Lexicographic (code-point) order on character lists, non-strict: how
Python compares the distinct string keys when sorting `element.items()`. -/
def lexLe : Chars → Chars → Bool
  | [], _ => true
  | _ :: _, [] => false
  | x :: xs, y :: ys => if x = y then lexLe xs ys else decide (x < y)

/-- Strict lexicographic (code-point) order on character lists. -/
def lexLt : Chars → Chars → Bool
  | [], [] => false
  | [], _ :: _ => true
  | _ :: _, [] => false
  | x :: xs, y :: ys => if x = y then lexLt xs ys else decide (x < y)

/-- Stable insertion by a key projection (the element is placed before the
first resident whose key is `≥` its own). -/
def insertKeyed {α : Type} (key : α → Chars) (p : α) : List α → List α
  | [] => [p]
  | q :: rest => if lexLe (key p) (key q) then p :: q :: rest else q :: insertKeyed key p rest

/-- Stable insertion sort by a key projection: Python `sorted` on pairs whose
keys are distinct strings (comparison then never reaches the second
component). -/
def sortKeyed {α : Type} (key : α → Chars) : List α → List α
  | [] => []
  | p :: rest => insertKeyed key p (sortKeyed key rest)

/-- The string underlying a `PyVal` key (only meaningful for `str` keys,
which is all `encode_item` accepts in a mapping). -/
def pvKey : PyVal → Chars
  | .str s => s
  | _ => []

def isStrKey : PyVal → Bool
  | .str _ => true
  | _ => false

mutual

/-- `encode_item` from rafthelpers.py.  `None` encodes to the empty string;
ints to `i…e`; strings to `len:content`; lists to `l…e`; mappings to `d…e`
with their `(key, value)` pairs sorted by key first.  The result is `none`
when the mapping has a non-`str` key (where Python's `sorted` may raise
`TypeError`; messages only ever use string keys). -/
def encode_item : PyVal → Option Chars
  | .none => some []
  | .int n => some ('i' :: (encodeInt n ++ ['e']))
  | .str s => some (encodeStr s)
  | .list l =>
    match encodeList l with
    | some cs => some ('l' :: (cs ++ ['e']))
    | Option.none => Option.none
  | .dict d =>
    match encodePairs d with
    | some kvs =>
      some ('d' :: (((sortKeyed (fun q => q.1) kvs).map Prod.snd).flatten ++ ['e']))
    | Option.none => Option.none

/-- Encodes the elements of a list in order and concatenates. -/
def encodeList : List PyVal → Option Chars
  | [] => some []
  | v :: vs =>
    match encode_item v, encodeList vs with
    | some c, some cs => some (c ++ cs)
    | _, _ => Option.none

/-- Encodes each `(key, value)` pair of a mapping to `(key string, encoded
key followed by encoded value)`; fails on a non-`str` key.  Sorting these
chunks by their key string afterwards is the same as Python's
sort-then-encode, since encoding is applied pointwise. -/
def encodePairs : List (PyVal × PyVal) → Option (List (Chars × Chars))
  | [] => some []
  | (k, v) :: rest =>
    match k with
    | .str s =>
      match encode_item v, encodePairs rest with
      | some cv, some kvs => some ((s, encodeStr s ++ cv) :: kvs)
      | _, _ => Option.none
    | _ => Option.none

end

/-- The interleaved `[k₁, v₁, k₂, v₂, …]` traversal of a pair list (the
shape in which a mapping's content appears on the wire). -/
def flattenPairs : List (PyVal × PyVal) → List PyVal
  | [] => []
  | (k, v) :: rest => k :: v :: flattenPairs rest

/-- `zip(elements[::2], elements[1::2])`: consecutive elements paired up, a
trailing odd element dropped. -/
def pairUp : List PyVal → List (PyVal × PyVal)
  | k :: v :: rest => (k, v) :: pairUp rest
  | _ => []

/-- Python hashability of the decoded keys: `list` and `dict` keys would
raise `TypeError` in the decoder's dict comprehension. -/
def pyHashable : PyVal → Bool
  | .list _ => false
  | .dict _ => false
  | _ => true

/-- Python `==` on the hashable keys the decoder can insert (`None`, ints,
strings); on those it is structural equality. -/
def pyKeyEq : PyVal → PyVal → Bool
  | .none, .none => true
  | .int a, .int b => a == b
  | .str a, .str b => a == b
  | _, _ => false

/-- Insertion into a Python dict: an existing key keeps its position and
gets the new value; a new key is appended. -/
def pyDictInsert (d : List (PyVal × PyVal)) (k v : PyVal) : List (PyVal × PyVal) :=
  match d with
  | [] => [(k, v)]
  | (k0, v0) :: rest =>
    if pyKeyEq k0 k then (k0, v) :: rest else (k0, v0) :: pyDictInsert rest k v

/-- The decoder's `{k: v for k, v in zip(...)}`: left-to-right insertion,
`none` when a key is unhashable. -/
def pyDictFromPairsAux (acc : List (PyVal × PyVal)) :
    List (PyVal × PyVal) → Option (List (PyVal × PyVal))
  | [] => some acc
  | (k, v) :: rest =>
    if pyHashable k then pyDictFromPairsAux (pyDictInsert acc k v) rest else Option.none

def pyDictFromPairs (l : List (PyVal × PyVal)) : Option (List (PyVal × PyVal)) :=
  pyDictFromPairsAux [] l

/-- Outcome of the decoder's recursive `closure`: a decoded value with the
unconsumed remainder, a raised `DecodeError` (`malformed`), any other
uncaught Python exception such as the `AttributeError` from a failed
`re.match` (`pyerror`), or fuel exhaustion (the Python code loops forever on
inputs such as `"l"`, so the recursion is fuel-indexed). -/
inductive Res (α : Type) where
  | ok (a : α) (rest : Chars)
  | malformed
  | pyerror
  | fuelOut

mutual

/-- `closure` from `decode_item` in rafthelpers.py, with explicit fuel.
The `i…e` and `len:` regexes are modelled exactly: an optional sign then a
maximal digit run which must be followed by `e` (resp. `:`); a failed match
makes Python call `.group` on `None`, i.e. `pyerror`.  String slicing
clamps, so an advertised length larger than the remaining input silently
yields a short string, as in Python. -/
def closure : Nat → Chars → Res PyVal
  | 0, _ => .fuelOut
  | _ + 1, [] => .ok .none []
  | fuel + 1, c :: t =>
    if c = 'i' then
      let u := if t.head? = some '-' then t.tail else t
      let ds := u.takeWhile Char.isDigit
      if ds = [] then .pyerror
      else
        let after := u.drop ds.length
        if after.head? = some 'e' then
          .ok (.int (if t.head? = some '-' then -(parseNat ds : Int) else (parseNat ds : Int)))
            after.tail
        else .pyerror
    else if c.isDigit then
      let ds := (c :: t).takeWhile Char.isDigit
      let after := (c :: t).drop ds.length
      if after.head? = some ':' then
        .ok (.str (after.tail.take (parseNat ds))) (after.tail.drop (parseNat ds))
      else .pyerror
    else if c = 'l' ∨ c = 'd' then
      match decodeElems fuel t with
      | .ok elems r =>
        if c = 'l' then .ok (.list elems) r
        else
          match pyDictFromPairs (pairUp elems) with
          | some d => .ok (.dict d) r
          | Option.none => .pyerror
      | .malformed => .malformed
      | .pyerror => .pyerror
      | .fuelOut => .fuelOut
    else .malformed

/-- The `while not rest.startswith("e")` loop shared by the `l` and `d`
branches; consumes the terminating `e`. -/
def decodeElems : Nat → Chars → Res (List PyVal)
  | 0, _ => .fuelOut
  | fuel + 1, s =>
    if s.head? = some 'e' then .ok [] s.tail
    else
      match closure fuel s with
      | .ok v r =>
        match decodeElems fuel r with
        | .ok vs r' => .ok (v :: vs) r'
        | .malformed => .malformed
        | .pyerror => .pyerror
        | .fuelOut => .fuelOut
      | .malformed => .malformed
      | .pyerror => .pyerror
      | .fuelOut => .fuelOut

end

/-- Outcome of `decode_item` (which returns only `closure(string)[0]`,
discarding the unconsumed remainder). -/
inductive DIRes where
  | val (v : PyVal)
  | malformed
  | pyerror
  | fuelOut

/-- `decode_item` from rafthelpers.py (fuel-indexed). -/
def decode_item (fuel : Nat) (s : Chars) : DIRes :=
  match closure fuel s with
  | .ok v _ => .val v
  | .malformed => .malformed
  | .pyerror => .pyerror
  | .fuelOut => .fuelOut

/-- Keys of a pair list, as their underlying strings. -/
def keyChars (d : List (PyVal × PyVal)) : List Chars := d.map fun p => pvKey p.1

mutual

/-- Well-formed message values: the values for which the claims quantify
("ints, strings, lists, and dicts as used in messages") — no `None` (inside
a container its empty encoding cannot be decoded back), mappings keyed by
distinct strings. -/
def WFb : PyVal → Bool
  | .none => false
  | .int _ => true
  | .str _ => true
  | .list l => WFbList l
  | .dict d => WFbPairs d && decide (keyChars d).Nodup

def WFbList : List PyVal → Bool
  | [] => true
  | v :: rest => WFb v && WFbList rest

def WFbPairs : List (PyVal × PyVal) → Bool
  | [] => true
  | (k, v) :: rest => isStrKey k && WFb v && WFbPairs rest

end

mutual

/-- Fuel that is always sufficient for the decoder on an encoded value. -/
def cost : PyVal → Nat
  | .none => 1
  | .int _ => 1
  | .str _ => 1
  | .list l => 1 + costList l
  | .dict d => 1 + costPairs d

def costList : List PyVal → Nat
  | [] => 1
  | v :: vs => 1 + cost v + costList vs

def costPairs : List (PyVal × PyVal) → Nat
  | [] => 1
  | (k, v) :: rest => 2 + cost k + cost v + costPairs rest

end

mutual

/-- The canonical form of a value: every mapping sorted by key.  Decoding an
encoded value yields exactly the canonical form; Python's `==` (which
ignores dict ordering) cannot tell them apart. -/
def canon : PyVal → PyVal
  | .none => .none
  | .int n => .int n
  | .str s => .str s
  | .list l => .list (canonList l)
  | .dict d => .dict (sortKeyed (fun p => pvKey p.1) (canonPairs d))

def canonList : List PyVal → List PyVal
  | [] => []
  | v :: rest => canon v :: canonList rest

def canonPairs : List (PyVal × PyVal) → List (PyVal × PyVal)
  | [] => []
  | (k, v) :: rest => (canon k, canon v) :: canonPairs rest

end

/-- Non-strict chain: each key `≤` the next. -/
def chainLeB : List Chars → Bool
  | [] => true
  | [_] => true
  | a :: b :: r => lexLe a b && chainLeB (b :: r)

/-- Strict chain: each key `<` the next (sorted, duplicate-free keys). -/
def chainLtB : List Chars → Bool
  | [] => true
  | [_] => true
  | a :: b :: r => lexLt a b && chainLtB (b :: r)

mutual

/-- Canonically encoded values: mappings have distinct string keys in
strictly increasing order (so `canon` fixes them); these are exactly the
values whose encodings the spec's grammar produces with its "keys sorted"
side condition and no redundant integer signs or digits. -/
def Canonicalb : PyVal → Bool
  | .none => false
  | .int _ => true
  | .str _ => true
  | .list l => CanonicalbList l
  | .dict d => CanonicalbPairs d && chainLtB (keyChars d)

def CanonicalbList : List PyVal → Bool
  | [] => true
  | v :: rest => Canonicalb v && CanonicalbList rest

def CanonicalbPairs : List (PyVal × PyVal) → Bool
  | [] => true
  | (k, v) :: rest => isStrKey k && Canonicalb v && CanonicalbPairs rest

end

/-- All-digit strings (the grammar's `DIGIT+`). -/
def allDigits (l : Chars) : Bool := l.all Char.isDigit

/-! ### Arithmetic of the decimal encoding -/

theorem digitChar_isDigit (d : Nat) (h : d < 10) : (Nat.digitChar d).isDigit = true := by
  interval_cases d <;> decide

theorem digitChar_val (d : Nat) (h : d < 10) :
    (Nat.digitChar d).toNat - '0'.toNat = d := by
  interval_cases d <;> decide

theorem parseNat_append_digit (l : Chars) (c : Char) :
    parseNat (l ++ [c]) = 10 * parseNat l + (c.toNat - '0'.toNat) := by
  simp [parseNat, List.foldl_append]

theorem encodeNatGo_eq (fuel n : Nat) (h : n < fuel) :
    encodeNatGo fuel n = if n < 10 then [Nat.digitChar n]
      else encodeNatGo (fuel - 1) (n / 10) ++ [Nat.digitChar (n % 10)] := by
  cases fuel with
  | zero => omega
  | succ fuel => rfl

theorem encodeNatGo_fuel (fuel fuel' n : Nat) (h : n < fuel) (h' : n < fuel') :
    encodeNatGo fuel n = encodeNatGo fuel' n := by
  induction fuel generalizing fuel' n with
  | zero => omega
  | succ fuel ih =>
    cases fuel' with
    | zero => omega
    | succ fuel' =>
      simp only [encodeNatGo]
      by_cases h10 : n < 10
      · rw [if_pos h10, if_pos h10]
      · rw [if_neg h10, if_neg h10, ih fuel' (n / 10) (by omega) (by omega)]

theorem encodeNat_ne_nil (n : Nat) : encodeNat n ≠ [] := by
  rw [encodeNat]
  simp only [encodeNatGo]
  by_cases h : n < 10 <;> simp [h]

theorem encodeNat_all_digits (n : Nat) : ∀ c ∈ encodeNat n, c.isDigit = true := by
  suffices hgo : ∀ fuel n, n < fuel → ∀ c ∈ encodeNatGo fuel n, c.isDigit = true from
    hgo (n + 1) n (by omega)
  intro fuel
  induction fuel with
  | zero => intro n h; omega
  | succ fuel ih =>
    intro n h
    simp only [encodeNatGo]
    by_cases h10 : n < 10
    · simp only [h10, if_true, List.mem_singleton]
      rintro c rfl
      exact digitChar_isDigit n h10
    · simp only [h10, if_false, List.mem_append, List.mem_singleton]
      rintro c (hc | rfl)
      · exact ih (n / 10) (by omega) c hc
      · exact digitChar_isDigit (n % 10) (Nat.mod_lt _ (by norm_num))

theorem parseNat_encodeNat (n : Nat) : parseNat (encodeNat n) = n := by
  suffices hgo : ∀ fuel n, n < fuel → parseNat (encodeNatGo fuel n) = n from
    hgo (n + 1) n (by omega)
  intro fuel
  induction fuel with
  | zero => intro n h; omega
  | succ fuel ih =>
    intro n h
    simp only [encodeNatGo]
    by_cases h10 : n < 10
    · simp only [h10, if_true]
      have hv := digitChar_val n h10
      have h0 : '0'.toNat = 48 := by decide
      rw [h0] at hv
      simp [parseNat, hv]
    · simp only [h10, if_false, parseNat_append_digit]
      rw [ih (n / 10) (by omega)]
      have hv := digitChar_val (n % 10) (Nat.mod_lt _ (by norm_num))
      omega

theorem takeWhile_digits (l r : Chars) (hl : ∀ c ∈ l, c.isDigit = true)
    (hr : ∀ c, r.head? = some c → c.isDigit = false) :
    (l ++ r).takeWhile Char.isDigit = l := by
  induction l with
  | nil =>
    cases r with
    | nil => rfl
    | cons c t => simp [List.takeWhile_cons, hr c rfl]
  | cons c l' ih =>
    simp only [List.cons_append, List.takeWhile_cons, hl c (by simp), if_true,
      List.cons.injEq, true_and]
    exact ih (fun c hc => hl c (by simp [hc]))

theorem drop_digits (l r : Chars) :
    (l ++ r).drop l.length = r := List.drop_left l r

/-! ### Shape of encodings -/

/-- A well-formed value's encoding is nonempty and never starts with `e`
(so the element loop of the decoder never mistakes it for a terminator). -/
theorem encode_head (m : PyVal) (s : Chars) (hwf : WFb m = true)
    (henc : encode_item m = some s) : ∃ c t, s = c :: t ∧ c ≠ 'e' := by
  cases m with
  | none => simp [WFb] at hwf
  | int n =>
    simp only [encode_item, Option.some.injEq] at henc
    exact ⟨'i', _, henc.symm, by decide⟩
  | str s0 =>
    simp only [encode_item, Option.some.injEq] at henc
    cases hd : encodeNat s0.length with
    | nil => exact absurd hd (encodeNat_ne_nil _)
    | cons c t' =>
      refine ⟨c, t' ++ ':' :: s0, ?_, ?_⟩
      · rw [← henc]; simp [encodeStr, hd]
      · have hdig : c.isDigit = true :=
          encodeNat_all_digits s0.length c (by rw [hd]; exact List.mem_cons_self _ _)
        intro hc
        rw [hc] at hdig
        exact absurd hdig (by decide)
  | list l =>
    simp only [encode_item] at henc
    cases hl : encodeList l with
    | none => rw [hl] at henc; exact absurd henc (by simp)
    | some cs =>
      rw [hl] at henc
      simp only [Option.some.injEq] at henc
      exact ⟨'l', _, henc.symm, by decide⟩
  | dict d =>
    simp only [encode_item] at henc
    cases hd : encodePairs d with
    | none => rw [hd] at henc; exact absurd henc (by simp)
    | some kvs =>
      rw [hd] at henc
      simp only [Option.some.injEq] at henc
      exact ⟨'d', _, henc.symm, by decide⟩

/-! ### The sort used for mapping keys -/

theorem insertKeyed_perm {α : Type} (key : α → Chars) (p : α) (l : List α) :
    (insertKeyed key p l).Perm (p :: l) := by
  induction l with
  | nil => exact List.Perm.refl _
  | cons q rest ih =>
    by_cases h : lexLe (key p) (key q) = true
    · rw [insertKeyed, if_pos h]
    · rw [insertKeyed, if_neg h]
      exact ((ih.cons q).trans (List.Perm.swap p q rest))

theorem sortKeyed_perm {α : Type} (key : α → Chars) (l : List α) :
    (sortKeyed key l).Perm l := by
  induction l with
  | nil => exact List.Perm.refl _
  | cons p rest ih =>
    exact (insertKeyed_perm key p (sortKeyed key rest)).trans (ih.cons p)

theorem mem_sortKeyed {α : Type} (key : α → Chars) (l : List α) (a : α)
    (h : a ∈ sortKeyed key l) : a ∈ l :=
  (sortKeyed_perm key l).mem_iff.mp h

theorem costPairs_insertKeyed (key : PyVal × PyVal → Chars) (p : PyVal × PyVal)
    (l : List (PyVal × PyVal)) :
    costPairs (insertKeyed key p l) = 2 + cost p.1 + cost p.2 + costPairs l := by
  induction l with
  | nil => obtain ⟨k, v⟩ := p; simp [insertKeyed, costPairs]
  | cons q rest ih =>
    obtain ⟨k, v⟩ := p
    obtain ⟨k0, v0⟩ := q
    by_cases h : lexLe (key (k, v)) (key (k0, v0)) = true
    · rw [insertKeyed, if_pos h]
      simp [costPairs]
    · rw [insertKeyed, if_neg h]
      simp only [costPairs] at ih ⊢
      omega

theorem costPairs_sortKeyed (key : PyVal × PyVal → Chars) (l : List (PyVal × PyVal)) :
    costPairs (sortKeyed key l) = costPairs l := by
  induction l with
  | nil => rfl
  | cons p rest ih =>
    obtain ⟨k, v⟩ := p
    rw [sortKeyed, costPairs_insertKeyed, ih]
    simp [costPairs]

/-! ### Encoding a mapping: sorting commutes with pointwise encoding -/

theorem pvKey_str (s : Chars) : pvKey (.str s) = s := rfl

theorem encodePairs_insert (sk : Chars) (v : PyVal) (cv : Chars)
    (hv : encode_item v = some cv) :
    ∀ (l : List (PyVal × PyVal)) (kvs : List (Chars × Chars)),
      encodePairs l = some kvs →
      encodePairs (insertKeyed (fun p => pvKey p.1) (PyVal.str sk, v) l) =
        some (insertKeyed (fun q => q.1) (sk, encodeStr sk ++ cv) kvs) := by
  intro l
  induction l with
  | nil =>
    intro kvs h
    simp only [encodePairs, Option.some.injEq] at h
    subst h
    simp [insertKeyed, encodePairs, hv]
  | cons q rest ih =>
    intro kvs h
    obtain ⟨k0, v0⟩ := q
    cases k0
    case str s0 =>
      simp only [encodePairs] at h
      cases hv0 : encode_item v0 with
      | none => rw [hv0] at h; exact absurd h (by simp)
      | some cv0 =>
        cases hrest : encodePairs rest with
        | none => rw [hv0, hrest] at h; exact absurd h (by simp)
        | some kvs' =>
          rw [hv0, hrest] at h
          simp only [Option.some.injEq] at h
          subst h
          have hstep : insertKeyed (fun p => pvKey p.1) (PyVal.str sk, v)
              ((PyVal.str s0, v0) :: rest)
              = if lexLe sk s0 then (PyVal.str sk, v) :: (PyVal.str s0, v0) :: rest
                else (PyVal.str s0, v0)
                  :: insertKeyed (fun p => pvKey p.1) (PyVal.str sk, v) rest := rfl
          have hstep' : insertKeyed (fun q : Chars × Chars => q.1) (sk, encodeStr sk ++ cv)
              ((s0, encodeStr s0 ++ cv0) :: kvs')
              = if lexLe sk s0 then (sk, encodeStr sk ++ cv) :: (s0, encodeStr s0 ++ cv0) :: kvs'
                else (s0, encodeStr s0 ++ cv0)
                  :: insertKeyed (fun q => q.1) (sk, encodeStr sk ++ cv) kvs' := rfl
          rw [hstep, hstep']
          by_cases hle : lexLe sk s0 = true
          · rw [if_pos hle, if_pos hle]
            simp [encodePairs, hv, hv0, hrest]
          · rw [if_neg hle, if_neg hle]
            simp [encodePairs, hv0, ih kvs' hrest]
    all_goals simp [encodePairs] at h

theorem encodePairs_sortKeyed :
    ∀ (l : List (PyVal × PyVal)) (kvs : List (Chars × Chars)),
      encodePairs l = some kvs →
      encodePairs (sortKeyed (fun p => pvKey p.1) l) =
        some (sortKeyed (fun q => q.1) kvs) := by
  intro l
  induction l with
  | nil =>
    intro kvs h
    simp only [encodePairs, Option.some.injEq] at h
    subst h
    rfl
  | cons q rest ih =>
    intro kvs h
    obtain ⟨k0, v0⟩ := q
    cases k0
    case str s0 =>
      simp only [encodePairs] at h
      cases hv0 : encode_item v0 with
      | none => rw [hv0] at h; exact absurd h (by simp)
      | some cv0 =>
        cases hrest : encodePairs rest with
        | none => rw [hv0, hrest] at h; exact absurd h (by simp)
        | some kvs' =>
          rw [hv0, hrest] at h
          simp only [Option.some.injEq] at h
          subst h
          rw [show sortKeyed (fun p => pvKey p.1) ((PyVal.str s0, v0) :: rest)
              = insertKeyed (fun p => pvKey p.1) (PyVal.str s0, v0)
                  (sortKeyed (fun p => pvKey p.1) rest) from rfl]
          rw [encodePairs_insert s0 v0 cv0 hv0 _ _ (ih kvs' hrest)]
          rfl
    all_goals simp [encodePairs] at h

theorem encodeList_flattenPairs :
    ∀ (l : List (PyVal × PyVal)) (kvs : List (Chars × Chars)),
      encodePairs l = some kvs →
      encodeList (flattenPairs l) = some (kvs.map Prod.snd).flatten := by
  intro l
  induction l with
  | nil =>
    intro kvs h
    simp only [encodePairs, Option.some.injEq] at h
    subst h
    rfl
  | cons q rest ih =>
    intro kvs h
    obtain ⟨k0, v0⟩ := q
    cases k0
    case str s0 =>
      simp only [encodePairs] at h
      cases hv0 : encode_item v0 with
      | none => rw [hv0] at h; exact absurd h (by simp)
      | some cv0 =>
        cases hrest : encodePairs rest with
        | none => rw [hv0, hrest] at h; exact absurd h (by simp)
        | some kvs' =>
          rw [hv0, hrest] at h
          simp only [Option.some.injEq] at h
          subst h
          simp only [flattenPairs, encodeList, hv0, ih kvs' hrest]
          simp only [List.map_cons, List.flatten_cons, Option.some.injEq]
          rw [show encode_item (PyVal.str s0) = some (encodeStr s0) from rfl]
          simp [List.append_assoc]
    all_goals simp [encodePairs] at h

/-! ### Costs -/

theorem cost_pos (m : PyVal) : 1 ≤ cost m := by
  cases m <;> simp [cost]

theorem costList_pos (l : List PyVal) : 1 ≤ costList l := by
  cases l <;> simp [costList] <;> omega

theorem costList_flattenPairs (l : List (PyVal × PyVal)) :
    costList (flattenPairs l) = costPairs l := by
  induction l with
  | nil => rfl
  | cons q rest ih =>
    obtain ⟨k, v⟩ := q
    simp only [flattenPairs, costList, costPairs, ih]
    omega

/-! ### Canonicalisation -/

theorem pvKey_canon (k : PyVal) : pvKey (canon k) = pvKey k := by
  cases k <;> rfl

theorem canonPairs_insertKeyed (k v : PyVal) (l : List (PyVal × PyVal)) :
    canonPairs (insertKeyed (fun p => pvKey p.1) (k, v) l)
      = insertKeyed (fun p => pvKey p.1) (canon k, canon v) (canonPairs l) := by
  induction l with
  | nil => rfl
  | cons q0 rest ih =>
    obtain ⟨k0, v0⟩ := q0
    by_cases h : lexLe (pvKey k) (pvKey k0) = true
    · rw [show insertKeyed (fun p => pvKey p.1) (k, v) ((k0, v0) :: rest)
          = (k, v) :: (k0, v0) :: rest by rw [insertKeyed, if_pos h]]
      simp only [canonPairs]
      rw [show insertKeyed (fun p => pvKey p.1) (canon k, canon v)
            ((canon k0, canon v0) :: canonPairs rest)
          = (canon k, canon v) :: (canon k0, canon v0) :: canonPairs rest by
        rw [insertKeyed]
        rw [if_pos (by simpa [pvKey_canon] using h)]]
    · rw [show insertKeyed (fun p => pvKey p.1) (k, v) ((k0, v0) :: rest)
          = (k0, v0) :: insertKeyed (fun p => pvKey p.1) (k, v) rest by
        rw [insertKeyed, if_neg h]]
      simp only [canonPairs]
      rw [show insertKeyed (fun p => pvKey p.1) (canon k, canon v)
            ((canon k0, canon v0) :: canonPairs rest)
          = (canon k0, canon v0)
              :: insertKeyed (fun p => pvKey p.1) (canon k, canon v) (canonPairs rest) by
        rw [insertKeyed]
        rw [if_neg (by simpa [pvKey_canon] using h)]]
      rw [ih]

theorem canonPairs_sortKeyed (l : List (PyVal × PyVal)) :
    canonPairs (sortKeyed (fun p => pvKey p.1) l)
      = sortKeyed (fun p => pvKey p.1) (canonPairs l) := by
  induction l with
  | nil => rfl
  | cons q rest ih =>
    obtain ⟨k, v⟩ := q
    rw [show sortKeyed (fun p => pvKey p.1) ((k, v) :: rest)
        = insertKeyed (fun p => pvKey p.1) (k, v) (sortKeyed (fun p => pvKey p.1) rest)
        from rfl]
    rw [canonPairs_insertKeyed, ih]
    rfl

theorem pairUp_flattenPairs_canon (l : List (PyVal × PyVal)) :
    pairUp ((flattenPairs l).map canon) = canonPairs l := by
  induction l with
  | nil => rfl
  | cons q rest ih =>
    obtain ⟨k, v⟩ := q
    simp only [flattenPairs, List.map_cons, pairUp, ih, canonPairs]

theorem keyChars_canonPairs (l : List (PyVal × PyVal)) :
    keyChars (canonPairs l) = keyChars l := by
  induction l with
  | nil => rfl
  | cons q rest ih =>
    obtain ⟨k, v⟩ := q
    simp only [canonPairs, keyChars, List.map_cons] at ih ⊢
    rw [pvKey_canon, ih]

/-! ### The decoder's dict construction on distinct keys -/

theorem pyDictInsert_append (l : List (PyVal × PyVal)) (k v : PyVal)
    (h : ∀ p ∈ l, pyKeyEq p.1 k = false) :
    pyDictInsert l k v = l ++ [(k, v)] := by
  induction l with
  | nil => rfl
  | cons q rest ih =>
    obtain ⟨k0, v0⟩ := q
    rw [pyDictInsert]
    rw [if_neg (by simp [h (k0, v0) (by simp)])]
    simp only [List.cons_append, List.cons.injEq, true_and]
    exact ih (fun p hp => h p (by simp [hp]))

theorem pyDictFromPairsAux_eq :
    ∀ (l acc : List (PyVal × PyVal)),
      (∀ p ∈ l, pyHashable p.1 = true) →
      (∀ p ∈ l, ∀ q ∈ acc, pyKeyEq q.1 p.1 = false) →
      l.Pairwise (fun p q => pyKeyEq p.1 q.1 = false) →
      pyDictFromPairsAux acc l = some (acc ++ l) := by
  intro l
  induction l with
  | nil => intro acc _ _ _; simp [pyDictFromPairsAux]
  | cons q rest ih =>
    intro acc hhash hdisj hpw
    obtain ⟨k, v⟩ := q
    rw [pyDictFromPairsAux]
    rw [if_pos (hhash (k, v) (by simp))]
    rw [pyDictInsert_append acc k v (fun p hp => hdisj (k, v) (by simp) p hp)]
    rw [ih (acc ++ [(k, v)])
      (fun p hp => hhash p (by simp [hp]))
      (fun p hp q hq => by
        rcases List.mem_append.mp hq with hq | hq
        · exact hdisj p (by simp [hp]) q hq
        · simp only [List.mem_singleton] at hq
          subst hq
          exact (List.pairwise_cons.mp hpw).1 p hp)
      (List.pairwise_cons.mp hpw).2]
    simp

theorem pyDictFromPairs_eq (l : List (PyVal × PyVal))
    (hhash : ∀ p ∈ l, pyHashable p.1 = true)
    (hpw : l.Pairwise (fun p q => pyKeyEq p.1 q.1 = false)) :
    pyDictFromPairs l = some l := by
  rw [pyDictFromPairs, pyDictFromPairsAux_eq l [] hhash (by simp) hpw]
  rfl

/-! ### Extracting facts from `WFb` -/

theorem WFbPairs_mem (l : List (PyVal × PyVal)) (h : WFbPairs l = true) :
    ∀ p ∈ l, isStrKey p.1 = true ∧ WFb p.2 = true := by
  induction l with
  | nil => intro p hp; simp at hp
  | cons q rest ih =>
    obtain ⟨k, v⟩ := q
    simp only [WFbPairs, Bool.and_eq_true] at h
    intro p hp
    rcases List.mem_cons.mp hp with rfl | hp
    · exact ⟨h.1.1, h.1.2⟩
    · exact ih h.2 p hp

theorem WFbList_mem (l : List PyVal) (h : WFbList l = true) :
    ∀ v ∈ l, WFb v = true := by
  induction l with
  | nil => intro v hv; simp at hv
  | cons v0 rest ih =>
    simp only [WFbList, Bool.and_eq_true] at h
    intro v hv
    rcases List.mem_cons.mp hv with rfl | hv
    · exact h.1
    · exact ih h.2 v hv

theorem isStrKey_shape (k : PyVal) (h : isStrKey k = true) : k = .str (pvKey k) := by
  cases k <;> first | rfl | simp [isStrKey] at h

theorem mem_flattenPairs (l : List (PyVal × PyVal)) (x : PyVal)
    (h : x ∈ flattenPairs l) : ∃ p ∈ l, x = p.1 ∨ x = p.2 := by
  induction l with
  | nil => simp [flattenPairs] at h
  | cons q rest ih =>
    obtain ⟨k, v⟩ := q
    simp only [flattenPairs, List.mem_cons] at h
    rcases h with rfl | rfl | h
    · exact ⟨(x, v), by simp⟩
    · exact ⟨(k, x), by simp⟩
    · obtain ⟨p, hp, hx⟩ := ih h
      exact ⟨p, by simp [hp], hx⟩

/-! ### Behaviour of `closure` on each kind of encoded value -/

theorem closure_int_branch (fuel : Nat) (sign : Bool) (ds r : Chars)
    (hds : ds ≠ []) (hdig : ∀ c ∈ ds, c.isDigit = true) :
    closure (fuel + 1) ('i' :: ((if sign then ['-'] else []) ++ (ds ++ 'e' :: r)))
      = .ok (.int (if sign then -(parseNat ds : Int) else (parseNat ds : Int))) r := by
  obtain ⟨c, ds', rfl⟩ : ∃ c ds', ds = c :: ds' := by
    cases ds with
    | nil => exact absurd rfl hds
    | cons c ds' => exact ⟨c, ds', rfl⟩
  have hcdig : c.isDigit = true := hdig c (by simp)
  have hcne : c ≠ '-' := by
    intro hc; rw [hc] at hcdig; exact absurd hcdig (by decide)
  have htake : ((c :: ds') ++ 'e' :: r).takeWhile Char.isDigit = c :: ds' :=
    takeWhile_digits _ _ hdig (by
      intro x hx
      simp only [List.head?_cons, Option.some.injEq] at hx
      subst hx
      decide)
  have hdrop : ((c :: ds') ++ 'e' :: r).drop (c :: ds').length = 'e' :: r :=
    drop_digits _ _
  have htake2 : List.takeWhile Char.isDigit (c :: (ds' ++ 'e' :: r)) = c :: ds' := htake
  have hidx : (c :: (ds' ++ 'e' :: r))[(c :: ds').length]? = some 'e' := by
    rw [show (c :: (ds' ++ 'e' :: r)) = (c :: ds') ++ 'e' :: r from rfl,
      List.getElem?_append_right le_rfl]
    simp
  have hdrop2 : (ds' ++ 'e' :: r).drop (c :: ds').length = r := by
    rw [show (c :: ds').length = ds'.length + 1 from rfl, List.drop_append]
    rfl
  cases sign with
  | true =>
    show closure (fuel + 1) ('i' :: ('-' :: ((c :: ds') ++ 'e' :: r)))
      = .ok (.int (-(parseNat (c :: ds') : Int))) r
    simp only [closure, List.head?_cons, List.tail_cons]
    simp [htake2, hcdig, hidx, hdrop2]
  | false =>
    show closure (fuel + 1) ('i' :: ((c :: ds') ++ 'e' :: r))
      = .ok (.int (parseNat (c :: ds') : Int)) r
    simp only [closure]
    simp [htake2, hcdig, hidx, hdrop2, hcne]
  done

theorem closure_str_branch (fuel : Nat) (s0 r : Chars) :
    closure (fuel + 1) (encodeStr s0 ++ r) = .ok (.str s0) r := by
  obtain ⟨c, ds', hds⟩ : ∃ c ds', encodeNat s0.length = c :: ds' := by
    cases h : encodeNat s0.length with
    | nil => exact absurd h (encodeNat_ne_nil _)
    | cons c ds' => exact ⟨c, ds', rfl⟩
  have hdig : ∀ x ∈ encodeNat s0.length, x.isDigit = true := encodeNat_all_digits _
  have hcdig : c.isDigit = true := hdig c (by simp [hds])
  have hcni : c ≠ 'i' := by
    intro hc; rw [hc] at hcdig; exact absurd hcdig (by decide)
  have harr : encodeStr s0 ++ r = (c :: ds') ++ ':' :: (s0 ++ r) := by
    simp [encodeStr, hds, List.append_assoc]
  have htake : ((c :: ds') ++ ':' :: (s0 ++ r)).takeWhile Char.isDigit = c :: ds' := by
    refine takeWhile_digits _ _ ?_ ?_
    · rw [← hds]; exact hdig
    · intro x hx
      simp only [List.head?_cons, Option.some.injEq] at hx
      subst hx
      decide
  have hdrop : ((c :: ds') ++ ':' :: (s0 ++ r)).drop (c :: ds').length = ':' :: (s0 ++ r) :=
    drop_digits _ _
  have hparse : parseNat (c :: ds') = s0.length := by
    rw [← hds]; exact parseNat_encodeNat _
  have htake2 : List.takeWhile Char.isDigit (c :: (ds' ++ ':' :: (s0 ++ r))) = c :: ds' := htake
  have hidx : (c :: (ds' ++ ':' :: (s0 ++ r)))[(c :: ds').length]? = some ':' := by
    rw [show (c :: (ds' ++ ':' :: (s0 ++ r))) = (c :: ds') ++ ':' :: (s0 ++ r) from rfl,
      List.getElem?_append_right le_rfl]
    simp
  have hdrop2 : (ds' ++ ':' :: (s0 ++ r)).drop (c :: ds').length = s0 ++ r := by
    rw [show (c :: ds').length = ds'.length + 1 from rfl, List.drop_append]
    rfl
  have hdrop3 : (ds' ++ ':' :: (s0 ++ r)).drop ((c :: ds').length + s0.length) = r := by
    rw [show (c :: ds').length + s0.length = ds'.length + (1 + s0.length) by
        simp [List.length_cons]; omega,
      List.drop_append]
    rw [show (1 + s0.length) = s0.length + 1 by omega]
    rw [show (':' :: (s0 ++ r)).drop (s0.length + 1) = (s0 ++ r).drop s0.length from rfl]
    exact List.drop_left _ _
  rw [harr]
  show closure (fuel + 1) (c :: (ds' ++ ':' :: (s0 ++ r))) = .ok (.str s0) r
  simp only [closure]
  rw [if_neg hcni, if_pos hcdig]
  simp [htake2, hidx, hdrop2, hdrop3, hparse, List.take_left]

theorem closure_list_branch (fuel : Nat) (body r : Chars) (elems : List PyVal)
    (h : decodeElems fuel (body ++ 'e' :: r) = .ok elems r) :
    closure (fuel + 1) ('l' :: (body ++ ['e']) ++ r) = .ok (.list elems) r := by
  rw [show ('l' :: (body ++ ['e']) ++ r) = 'l' :: (body ++ 'e' :: r) by
    simp [List.append_assoc]]
  simp only [closure]
  rw [h]
  simp

theorem canonList_eq_map (l : List PyVal) : canonList l = l.map canon := by
  induction l with
  | nil => rfl
  | cons v rest ih => simp only [canonList, List.map_cons, ih]

theorem canonPairs_eq_map (l : List (PyVal × PyVal)) :
    canonPairs l = l.map (fun q => (canon q.1, canon q.2)) := by
  induction l with
  | nil => rfl
  | cons q rest ih =>
    obtain ⟨k, v⟩ := q
    simp only [canonPairs, List.map_cons, ih]

theorem closure_dict_branch (fuel : Nat) (body r : Chars) (elems : List PyVal)
    (d : List (PyVal × PyVal))
    (h : decodeElems fuel (body ++ 'e' :: r) = .ok elems r)
    (hd : pyDictFromPairs (pairUp elems) = some d) :
    closure (fuel + 1) ('d' :: (body ++ ['e']) ++ r) = .ok (.dict d) r := by
  rw [show ('d' :: (body ++ ['e']) ++ r) = 'd' :: (body ++ 'e' :: r) by
    simp [List.append_assoc]]
  simp only [closure]
  rw [h]
  simp [hd]

/-- Decoding inverts encoding: on any well-formed value's encoding (with any
trailing bytes), the decoder consumes exactly the encoding and produces the
canonical form of the value, provided the fuel covers the value's size. -/
theorem decode_encode_aux (fuel : Nat) :
    (∀ (m : PyVal) (s rest : Chars), WFb m = true → encode_item m = some s →
        cost m ≤ fuel → closure fuel (s ++ rest) = .ok (canon m) rest)
    ∧ (∀ (vs : List PyVal) (s rest : Chars), (∀ v ∈ vs, WFb v = true) →
        encodeList vs = some s → costList vs ≤ fuel →
        decodeElems fuel (s ++ 'e' :: rest) = .ok (vs.map canon) rest) := by
  induction fuel with
  | zero =>
    constructor
    · intro m s rest _ _ hc
      exact absurd hc (by have := cost_pos m; omega)
    · intro vs s rest _ _ hc
      exact absurd hc (by have := costList_pos vs; omega)
  | succ fuel ih =>
    obtain ⟨ih1, ih2⟩ := ih
    constructor
    · intro m s rest hwf henc hcost
      cases m with
      | none => simp [WFb] at hwf
      | int n =>
        simp only [encode_item, Option.some.injEq] at henc
        subst henc
        by_cases hn : n < 0
        · have harr : ('i' :: (encodeInt n ++ ['e'])) ++ rest
              = 'i' :: ((if true then ['-'] else [])
                  ++ (encodeNat (-n).toNat ++ 'e' :: rest)) := by
            simp [encodeInt, hn, List.append_assoc]
          rw [harr, closure_int_branch fuel true _ rest (encodeNat_ne_nil _)
            (encodeNat_all_digits _)]
          have hval : (if true then -(parseNat (encodeNat (-n).toNat) : Int)
              else (parseNat (encodeNat (-n).toNat) : Int)) = n := by
            rw [if_pos rfl, parseNat_encodeNat]
            omega
          rw [hval]
          rfl
        · have harr : ('i' :: (encodeInt n ++ ['e'])) ++ rest
              = 'i' :: ((if false then ['-'] else [])
                  ++ (encodeNat n.toNat ++ 'e' :: rest)) := by
            simp [encodeInt, hn, List.append_assoc]
          rw [harr, closure_int_branch fuel false _ rest (encodeNat_ne_nil _)
            (encodeNat_all_digits _)]
          have hval : (if false then -(parseNat (encodeNat n.toNat) : Int)
              else (parseNat (encodeNat n.toNat) : Int)) = n := by
            rw [if_neg (by simp), parseNat_encodeNat]
            omega
          rw [hval]
          rfl
      | str s0 =>
        simp only [encode_item, Option.some.injEq] at henc
        subst henc
        exact closure_str_branch fuel s0 rest
      | list l =>
        simp only [encode_item] at henc
        cases hl : encodeList l with
        | none => rw [hl] at henc; simp at henc
        | some cs =>
          rw [hl] at henc
          simp only [Option.some.injEq] at henc
          subst henc
          have hwf' : ∀ v ∈ l, WFb v = true := WFbList_mem l (by simpa [WFb] using hwf)
          have hcost' : costList l ≤ fuel := by simp only [cost] at hcost; omega
          have hdec := ih2 l cs rest hwf' hl hcost'
          rw [closure_list_branch fuel cs rest (l.map canon) hdec]
          rw [show canon (.list l) = .list (canonList l) from rfl, canonList_eq_map]
      | dict d =>
        simp only [encode_item] at henc
        cases hp : encodePairs d with
        | none => rw [hp] at henc; simp at henc
        | some kvs =>
          rw [hp] at henc
          simp only [Option.some.injEq] at henc
          subst henc
          have hw1 : WFbPairs d = true := by
            have := hwf
            simp only [WFb, Bool.and_eq_true] at this
            exact this.1
          have hw2 : (keyChars d).Nodup := by
            have := hwf
            simp only [WFb, Bool.and_eq_true, decide_eq_true_eq] at this
            exact this.2
          have hps : encodePairs (sortKeyed (fun p => pvKey p.1) d)
              = some (sortKeyed (fun q => q.1) kvs) := encodePairs_sortKeyed d kvs hp
          have hflat : encodeList (flattenPairs (sortKeyed (fun p => pvKey p.1) d))
              = some ((sortKeyed (fun q => q.1) kvs).map Prod.snd).flatten :=
            encodeList_flattenPairs _ _ hps
          have hwfelems : ∀ v ∈ flattenPairs (sortKeyed (fun p => pvKey p.1) d),
              WFb v = true := by
            intro x hx
            obtain ⟨p, hpmem, hx⟩ := mem_flattenPairs _ x hx
            have hpd : p ∈ d := mem_sortKeyed _ d p hpmem
            have hfacts := WFbPairs_mem d hw1 p hpd
            rcases hx with rfl | rfl
            · rw [isStrKey_shape p.1 hfacts.1]; rfl
            · exact hfacts.2
          have hcostelems : costList (flattenPairs (sortKeyed (fun p => pvKey p.1) d))
              ≤ fuel := by
            rw [costList_flattenPairs, costPairs_sortKeyed]
            simp only [cost] at hcost
            omega
          have hdec := ih2 _ _ rest hwfelems hflat hcostelems
          have hpair : pairUp ((flattenPairs (sortKeyed (fun p => pvKey p.1) d)).map canon)
              = canonPairs (sortKeyed (fun p => pvKey p.1) d) :=
            pairUp_flattenPairs_canon _
          have hshape : ∀ p ∈ canonPairs (sortKeyed (fun p => pvKey p.1) d),
              ∃ q ∈ d, p = (canon q.1, canon q.2) ∧ isStrKey q.1 = true := by
            intro p hp2
            rw [canonPairs_eq_map] at hp2
            obtain ⟨q, hq, rfl⟩ := List.mem_map.mp hp2
            have hqd : q ∈ d := mem_sortKeyed _ d q hq
            exact ⟨q, hqd, rfl, (WFbPairs_mem d hw1 q hqd).1⟩
          have hhash : ∀ p ∈ canonPairs (sortKeyed (fun p => pvKey p.1) d),
              pyHashable p.1 = true := by
            intro p hp2
            obtain ⟨q, _, rfl, hstr⟩ := hshape p hp2
            rw [isStrKey_shape q.1 hstr]
            rfl
          have hnodup : (keyChars (canonPairs (sortKeyed (fun p => pvKey p.1) d))).Nodup := by
            rw [keyChars_canonPairs]
            have hperm : (keyChars (sortKeyed (fun p => pvKey p.1) d)).Perm (keyChars d) :=
              (sortKeyed_perm _ d).map _
            exact (List.Perm.nodup_iff hperm).mpr hw2
          have hcanonstr : ∀ s : Chars, canon (PyVal.str s) = PyVal.str s := fun _ => rfl
          have hpw : (canonPairs (sortKeyed (fun p => pvKey p.1) d)).Pairwise
              (fun p q => pyKeyEq p.1 q.1 = false) := by
            have h1 : (canonPairs (sortKeyed (fun p => pvKey p.1) d)).Pairwise
                (fun p q => pvKey p.1 ≠ pvKey q.1) := by
              have h2 := hnodup
              rw [keyChars, List.Nodup, List.pairwise_map] at h2
              exact h2
            refine h1.imp_of_mem ?_
            intro p q hp2 hq2 hne
            obtain ⟨pq, _, rfl, hstrp⟩ := hshape p hp2
            obtain ⟨qq, _, rfl, hstrq⟩ := hshape q hq2
            simp only at hne ⊢
            rw [pvKey_canon, pvKey_canon] at hne
            rw [isStrKey_shape pq.1 hstrp, isStrKey_shape qq.1 hstrq, hcanonstr, hcanonstr]
            simp only [pyKeyEq, beq_eq_false_iff_ne, ne_eq]
            intro hcontra
            exact hne (by rw [hcontra])
          have hdict : pyDictFromPairs
              (pairUp ((flattenPairs (sortKeyed (fun p => pvKey p.1) d)).map canon))
              = some (canonPairs (sortKeyed (fun p => pvKey p.1) d)) := by
            rw [hpair]
            exact pyDictFromPairs_eq _ hhash hpw
          have hcl := closure_dict_branch fuel
            (((sortKeyed (fun q => q.1) kvs).map Prod.snd).flatten) rest
            ((flattenPairs (sortKeyed (fun p => pvKey p.1) d)).map canon)
            (canonPairs (sortKeyed (fun p => pvKey p.1) d)) hdec hdict
          rw [hcl]
          rw [show canon (.dict d)
              = .dict (sortKeyed (fun p => pvKey p.1) (canonPairs d)) from rfl]
          rw [canonPairs_sortKeyed]
    · intro vs s rest hwf henc hcost
      cases vs with
      | nil =>
        simp only [encodeList, Option.some.injEq] at henc
        subst henc
        simp [decodeElems]
      | cons v vs' =>
        simp only [encodeList] at henc
        cases hv : encode_item v with
        | none => rw [hv] at henc; simp at henc
        | some c1 =>
          cases hvs : encodeList vs' with
          | none => rw [hv, hvs] at henc; simp at henc
          | some cs =>
            rw [hv, hvs] at henc
            simp only [Option.some.injEq] at henc
            subst henc
            have hwfv := hwf v (by simp)
            obtain ⟨ch, t1, h1, hne⟩ := encode_head v c1 hwfv hv
            have harr : (c1 ++ cs) ++ 'e' :: rest = c1 ++ (cs ++ 'e' :: rest) := by
              simp [List.append_assoc]
            rw [harr]
            have hcostv : cost v ≤ fuel := by
              simp only [costList] at hcost
              have := costList_pos vs'
              omega
            have hcostvs : costList vs' ≤ fuel := by
              simp only [costList] at hcost
              have := cost_pos v
              omega
            have hcl := ih1 v c1 (cs ++ 'e' :: rest) hwfv hv hcostv
            have hde := ih2 vs' cs rest (fun u hu => hwf u (by simp [hu])) hvs hcostvs
            have hhead : (c1 ++ (cs ++ 'e' :: rest)).head? = some ch := by
              subst h1
              rfl
            simp only [decodeElems, hhead]
            rw [if_neg (by simp [hne])]
            rw [hcl]
            simp [hde]

/-! ### Canonical values are fixed by `canon` -/

theorem lexLe_of_lexLt : ∀ a b : Chars, lexLt a b = true → lexLe a b = true
  | [], _, _ => rfl
  | _ :: _, [], h => by simp [lexLt] at h
  | x :: xs, y :: ys, h => by
    by_cases hxy : x = y
    · rw [lexLt, if_pos hxy] at h
      rw [lexLe, if_pos hxy]
      exact lexLe_of_lexLt xs ys h
    · rw [lexLt, if_neg hxy] at h
      rw [lexLe, if_neg hxy]
      exact h

theorem chainLe_of_chainLt : ∀ l : List Chars, chainLtB l = true → chainLeB l = true
  | [], _ => rfl
  | [_], _ => rfl
  | a :: b :: r, h => by
    rw [chainLtB, Bool.and_eq_true] at h
    rw [chainLeB, Bool.and_eq_true]
    exact ⟨lexLe_of_lexLt a b h.1, chainLe_of_chainLt (b :: r) h.2⟩

theorem sortKeyed_of_chainLe {α : Type} (key : α → Chars) :
    ∀ l : List α, chainLeB (l.map key) = true → sortKeyed key l = l
  | [], _ => rfl
  | [p], _ => rfl
  | p :: q :: r, h => by
    rw [List.map_cons, List.map_cons, chainLeB, Bool.and_eq_true] at h
    rw [sortKeyed, sortKeyed_of_chainLe key (q :: r) (by rw [List.map_cons]; exact h.2)]
    rw [insertKeyed, if_pos h.1]

mutual

theorem canon_of_canonicalb : ∀ m : PyVal, Canonicalb m = true → canon m = m
  | .none, h => by simp [Canonicalb] at h
  | .int _, _ => rfl
  | .str _, _ => rfl
  | .list l, h => by
    rw [show canon (.list l) = .list (canonList l) from rfl,
      canonList_of_canonicalb l (by simpa [Canonicalb] using h)]
  | .dict d, h => by
    have h' : CanonicalbPairs d = true ∧ chainLtB (keyChars d) = true := by
      simpa [Canonicalb, Bool.and_eq_true] using h
    rw [show canon (.dict d) = .dict (sortKeyed (fun p => pvKey p.1) (canonPairs d)) from rfl]
    rw [canonPairs_of_canonicalb d h'.1]
    have hchain : chainLeB (d.map fun p => pvKey p.1) = true := by
      rw [show (d.map fun p => pvKey p.1) = keyChars d from rfl]
      exact chainLe_of_chainLt (keyChars d) h'.2
    rw [sortKeyed_of_chainLe (fun p => pvKey p.1) d hchain]

theorem canonList_of_canonicalb : ∀ l : List PyVal, CanonicalbList l = true → canonList l = l
  | [], _ => rfl
  | v :: rest, h => by
    have h' : Canonicalb v = true ∧ CanonicalbList rest = true := by
      simpa [CanonicalbList, Bool.and_eq_true] using h
    rw [show canonList (v :: rest) = canon v :: canonList rest from rfl,
      canon_of_canonicalb v h'.1, canonList_of_canonicalb rest h'.2]

theorem canonPairs_of_canonicalb :
    ∀ l : List (PyVal × PyVal), CanonicalbPairs l = true → canonPairs l = l
  | [], _ => rfl
  | (k, v) :: rest, h => by
    have h' : isStrKey k = true ∧ Canonicalb v = true ∧ CanonicalbPairs rest = true := by
      simpa [CanonicalbPairs, Bool.and_eq_true, and_assoc] using h
    have hk : canon k = k := by
      rw [isStrKey_shape k h'.1]
      rfl
    rw [show canonPairs ((k, v) :: rest) = (canon k, canon v) :: canonPairs rest from rfl,
      hk, canon_of_canonicalb v h'.2.1, canonPairs_of_canonicalb rest h'.2.2]

end

/-- A legal `str` production of the spec's grammar (§6):
`DIGIT+ ':' <that many raw bytes>`. -/
inductive LegalStr : Chars → Prop where
  | mk : ∀ ds content, ds ≠ [] → allDigits ds = true → content.length = parseNat ds →
      LegalStr (ds ++ ':' :: content)

/-- Legal encodings per the spec's grammar (§6):
`int := 'i' ['-'] DIGIT+ 'e'`, `str := DIGIT+ ':' …`, `list := 'l' value* 'e'`,
`dict := 'd' (str value)* 'e'` with keys sorted lexicographically. -/
inductive Legal : Chars → Prop where
  | int : ∀ sign ds, (sign = [] ∨ sign = ['-']) → ds ≠ [] → allDigits ds = true →
      Legal ('i' :: (sign ++ ds ++ ['e']))
  | str : ∀ b, LegalStr b → Legal b
  | list : ∀ parts : List Chars, (∀ p ∈ parts, Legal p) →
      Legal ('l' :: (parts.flatten ++ ['e']))
  | dict : ∀ pairs : List ((Chars × Chars) × Chars),
      (∀ pr ∈ pairs, pr.1.1 ≠ [] ∧ allDigits pr.1.1 = true
          ∧ pr.1.2.length = parseNat pr.1.1) →
      (∀ pr ∈ pairs, Legal pr.2) →
      chainLeB (pairs.map fun pr => pr.1.2) = true →
      Legal ('d' :: (((pairs.map fun pr => (pr.1.1 ++ ':' :: pr.1.2) ++ pr.2)).flatten ++ ['e']))

/-- Every legal encoding is nonempty, and one that starts with `i`, `l` or
`d` ends with `e`. -/
theorem legal_head_last (b : Chars) (hb : Legal b) :
    ∃ c t, b = c :: t ∧ (c = 'i' ∨ c = 'l' ∨ c = 'd' → b.getLast? = some 'e') := by
  cases hb with
  | int sign ds hsign hds hdig =>
    refine ⟨'i', sign ++ ds ++ ['e'], rfl, fun _ => ?_⟩
    rw [show ('i' :: (sign ++ ds ++ ['e'])) = ('i' :: (sign ++ ds)) ++ ['e'] by
      simp [List.append_assoc]]
    exact List.getLast?_concat _
  | str b hb =>
    cases hb with
    | mk ds content hds hdig hlen =>
      cases ds with
      | nil => exact absurd rfl hds
      | cons d ds' =>
        refine ⟨d, ds' ++ ':' :: content, rfl, fun hd => ?_⟩
        have hddig : d.isDigit = true := by
          have := hdig
          simp only [allDigits, List.all_cons, Bool.and_eq_true] at this
          exact this.1
        rcases hd with rfl | rfl | rfl <;> exact absurd hddig (by decide)
  | list parts hparts =>
    refine ⟨'l', parts.flatten ++ ['e'], rfl, fun _ => ?_⟩
    rw [show ('l' :: (parts.flatten ++ ['e'])) = ('l' :: parts.flatten) ++ ['e'] by
      simp [List.append_assoc]]
    exact List.getLast?_concat _
  | dict pairs hkeys hvals hsorted =>
    refine ⟨'d', _, rfl, fun _ => ?_⟩
    rw [show ('d' :: (((pairs.map fun pr => (pr.1.1 ++ ':' :: pr.1.2) ++ pr.2)).flatten ++ ['e']))
        = ('d' :: ((pairs.map fun pr => (pr.1.1 ++ ':' :: pr.1.2) ++ pr.2)).flatten) ++ ['e'] by
      simp [List.append_assoc]]
    exact List.getLast?_concat _

/-! ### Claim C5 -/

/-- C5 (counterexample): the byte string `i-0e` is a legal encoding per the
grammar (`'i' ['-'] DIGIT+ 'e'`), decodes to the integer `0`, but re-encoding
`0` yields `i0e`, which is not byte-identical to `i-0e`.  This refutes the
claim's second half (`encode_item(decode_item(b)) = b` for every
grammar-legal `b`). -/
theorem C5_counterexample :
    Legal ("i-0e".toList)
    ∧ decode_item 1 ("i-0e".toList) = DIRes.val (.int 0)
    ∧ encode_item (.int 0) = some ("i0e".toList)
    ∧ "i0e".toList ≠ "i-0e".toList := by
  refine ⟨?_, rfl, rfl, by decide⟩
  exact Legal.int ['-'] ['0'] (Or.inr rfl) (by decide) (by decide)

/-- C5 (amended): for every well-formed message value `m` (ints, strings,
lists, mappings with distinct string keys), decoding the encoding of `m`
yields exactly the canonical form of `m` — the same value with every mapping
sorted by key, which is what Python's structural equality `==` (order-blind
on dicts) identifies with `m`; and when `m` is already canonical the
round-trip is the identity, so on *canonically produced* byte strings
(images of `encode_item`, i.e. grammar-legal strings with no redundant sign
or leading zeros and strictly sorted keys) `encode_item ∘ decode_item` is
byte-identical.  Grammar-legal but non-canonical strings such as `i-0e`
re-encode differently. -/
theorem C5_codec_roundtrip (m : PyVal) (s : Chars) (fuel : Nat)
    (hwf : WFb m = true) (henc : encode_item m = some s) (hfuel : cost m ≤ fuel) :
    decode_item fuel s = DIRes.val (canon m)
    ∧ (Canonicalb m = true → canon m = m ∧ encode_item (canon m) = some s) := by
  have h := (decode_encode_aux fuel).1 m s [] hwf henc hfuel
  rw [List.append_nil] at h
  constructor
  · rw [decode_item, h]
  · intro hc
    have hfix := canon_of_canonicalb m hc
    exact ⟨hfix, by rw [hfix]; exact henc⟩

/-- Witness for C5: the spec §6 example
`encode({"a": [1, "two"], "b": -3}) = "d1:ali1e3:twoe1:bi-3ee"`, decoded
back to the identical (already canonical) value and re-encoded
byte-identically. -/
theorem C5_codec_roundtrip_witness :
    decode_item 50 ("d1:ali1e3:twoe1:bi-3ee".toList)
      = DIRes.val (PyVal.dict [(.str "a".toList, .list [.int 1, .str "two".toList]),
          (.str "b".toList, .int (-3))])
    ∧ encode_item (PyVal.dict [(.str "a".toList, .list [.int 1, .str "two".toList]),
          (.str "b".toList, .int (-3))])
        = some ("d1:ali1e3:twoe1:bi-3ee".toList) := by
  have h := C5_codec_roundtrip
    (PyVal.dict [(.str "a".toList, .list [.int 1, .str "two".toList]),
      (.str "b".toList, .int (-3))])
    ("d1:ali1e3:twoe1:bi-3ee".toList) 50 (by decide) (by decide) (by decide)
  obtain ⟨h1, h2⟩ := h
  obtain ⟨hfix, henc⟩ := h2 (by decide)
  constructor
  · rw [h1, hfix]
  · rw [← hfix] at henc ⊢
    exact henc

/-! ### Claim C6 -/

/-- C6: the claim states that on every input with no legal prefix the
decoder fails by raising `DecodeError` and crashes in no other way.  The
code violates this: on `"i12"` (no prefix of which is grammar-legal) the
regex `i(-?\d+)e` fails to match, `re.match` returns `None`, and the
subsequent `.group(1)` raises `AttributeError` — a crash that is not the
`DecodeError` the spec requires.  The claim is right about the intent
(rafthelpers.py defines `DecodeError("Malformed string.")` exactly for
this) and the code is the slip. -/
theorem C6_decode_error_mode :
    (∀ b t, Legal b → b ++ t = "i12".toList → False)
    ∧ decode_item 1 ("i12".toList) = DIRes.pyerror
    ∧ DIRes.pyerror ≠ DIRes.malformed := by
  refine ⟨?_, rfl, fun h => DIRes.noConfusion h⟩
  intro b t hb heq
  obtain ⟨c, tb, rfl, himp⟩ := legal_head_last b hb
  have heq' : c :: (tb ++ t) = 'i' :: '1' :: '2' :: [] := heq
  have hc : c = 'i' := (List.cons.injEq _ _ _ _).mp heq' |>.1
  have hlast := himp (Or.inl hc)
  have hmem : 'e' ∈ c :: tb := List.mem_of_getLast?_eq_some hlast
  have hmem2 : 'e' ∈ (c :: tb) ++ t := List.mem_append_left _ hmem
  rw [heq] at hmem2
  simp at hmem2

/-! ### Claim C10 -/

/-- C10: `decode_item` parses only the first complete value and silently
discards everything after it: decoding `encode_item(v) ++ s` for any
trailing bytes `s` yields the value `v` itself (its canonical form, which
Python `==` identifies with `v`; exactly `v` when `v`'s mappings are
key-sorted), never an error. -/
theorem C10_decode_discards_trailing (m : PyVal) (s suffix : Chars) (fuel : Nat)
    (hwf : WFb m = true) (henc : encode_item m = some s) (hfuel : cost m ≤ fuel) :
    decode_item fuel (s ++ suffix) = DIRes.val (canon m)
    ∧ (Canonicalb m = true → canon m = m) := by
  have h := (decode_encode_aux fuel).1 m s suffix hwf henc hfuel
  exact ⟨by rw [decode_item, h], canon_of_canonicalb m⟩

/-- Witness for C10: `i7e` followed by the garbage `XYZ` still decodes to
the integer `7` with no error. -/
theorem C10_decode_discards_trailing_witness :
    decode_item 1 ("i7e".toList ++ "XYZ".toList) = DIRes.val (.int 7) :=
  (C10_decode_discards_trailing (.int 7) ("i7e".toList) ("XYZ".toList) 1
    (by decide) rfl (by decide)).1

/-! ## raftrole.py (absent from the sources) and raftstate.py

`raftstate.py` imports `raftrole` for `Role`, `Operation`, `StateChange` and
`enumerate_state_change`, but `raftrole.py` itself is not among the provided
files; those four items are modelled from the specification (§4.3).
`RaftState` and its handlers are embedded from `raftstate.py`; Python dicts
become insertion-ordered association lists, and a raised exception or a
failed `assert` becomes a `none` result carrying no further state. -/

/-- The roles, including the three synthetic observed roles (§4.3). -/
inductive Role where
  | follower
  | candidate
  | leader
  | timer
  | electionCommission
  | constitution
deriving DecidableEq, Repr

/-- The per-field operations of a state change (§4.3). -/
inductive Operation where
  | leave
  | resetToNone
  | init
deriving DecidableEq, Repr

/-- The record of operations returned by the role table (§4.3). -/
structure StateChange where
  role_change : Option (Role × Role)
  current_term : Int
  next_index : Operation
  match_index : Operation
  commit_index : Operation
  has_followers : Operation
  voted_for : Operation
  current_votes : Operation
deriving DecidableEq, Repr

/-- Modelled from the spec: `enumerate_state_change` of the absent
`raftrole.py` (§4.3).  Real observed roles: a higher observed term is
adopted, any non-Follower demotes to Follower and `voted_for` resets; at an
equal term an observed Leader demotes a Candidate; a stale term changes
nothing.  Synthetic roles: `TIMER` makes a Follower a Candidate
(increment term, vote for self, initialise `current_votes` with a
self-vote); `ELECTION_COMMISSION` makes a Candidate a Leader (initialise
`next_index`, `match_index`, `has_followers`, clear candidate-only fields);
`CONSTITUTION` steps a Leader down (reset leader-only and candidate-only
fields).  `commit_index` is never reset ("it is monotone", §4.3). -/
def enumerate_state_change (observed_role : Role) (observed_term : Int)
    (own_role : Role) (own_term : Int) : StateChange :=
  match observed_role with
  | .timer =>
    { role_change := some (.follower, .candidate), current_term := own_term + 1,
      next_index := .leave, match_index := .leave, commit_index := .leave,
      has_followers := .leave, voted_for := .init, current_votes := .init }
  | .electionCommission =>
    { role_change := some (.candidate, .leader), current_term := own_term,
      next_index := .init, match_index := .init, commit_index := .leave,
      has_followers := .init, voted_for := .leave, current_votes := .resetToNone }
  | .constitution =>
    { role_change := some (.leader, .follower), current_term := own_term,
      next_index := .resetToNone, match_index := .resetToNone, commit_index := .leave,
      has_followers := .resetToNone, voted_for := .leave, current_votes := .resetToNone }
  | _ =>
    if own_term < observed_term then
      if own_role = .follower then
        { role_change := Option.none, current_term := observed_term,
          next_index := .leave, match_index := .leave, commit_index := .leave,
          has_followers := .leave, voted_for := .resetToNone, current_votes := .leave }
      else
        { role_change := some (own_role, .follower), current_term := observed_term,
          next_index := .resetToNone, match_index := .resetToNone, commit_index := .leave,
          has_followers := .resetToNone, voted_for := .resetToNone,
          current_votes := .resetToNone }
    else if observed_term = own_term ∧ observed_role = .leader ∧ own_role = .candidate then
      { role_change := some (.candidate, .follower), current_term := own_term,
        next_index := .resetToNone, match_index := .resetToNone, commit_index := .leave,
        has_followers := .resetToNone, voted_for := .leave, current_votes := .resetToNone }
    else
      { role_change := Option.none, current_term := own_term,
        next_index := .leave, match_index := .leave, commit_index := .leave,
        has_followers := .leave, voted_for := .leave, current_votes := .leave }

/-- The messages the embedded handlers consume and emit.  (The
`raftmessage.py` under the sources is a stale revision whose
`AppendEntryResponse` fields do not match the handlers' call sites; the
fields here follow the constructor calls in `raftstate.py`.) -/
inductive Message where
  | appendEntryRequest (source target current_term previous_index previous_term : Int)
      (entries : List LogEntry) (commit_index : Int)
  | appendEntryResponse (source target current_term : Int) (success : Bool)
      (entries_length : Nat)
  | requestVoteRequest (source target current_term last_log_index last_log_term : Int)
  | requestVoteResponse (source target : Int) (success : Bool) (current_term : Int)
  | updateFollowers (source target : Int) (followers : List Int)
deriving DecidableEq, Repr

/-- Python dict lookup (`d[k]`, `none` for the `KeyError` case). -/
def assocGet {β : Type} (l : List (Int × β)) (k : Int) : Option β :=
  match l with
  | [] => Option.none
  | (k0, v0) :: rest => if k0 = k then some v0 else assocGet rest k

/-- Python dict assignment (`d[k] = v`): an existing key keeps its position,
a new key is appended. -/
def assocSet {β : Type} (l : List (Int × β)) (k : Int) (v : β) : List (Int × β) :=
  match l with
  | [] => [(k, v)]
  | (k0, v0) :: rest => if k0 = k then (k0, v) :: rest else (k0, v0) :: assocSet rest k v

/-- `RaftState` from raftstate.py (the `__post_init__` fields).  The cluster
map `config` (read from the absent `raftconfig.py` in the source) is carried
as a field. -/
structure RaftState where
  identifier : Int
  log : List LogEntry
  role : Role
  current_term : Int
  next_index : Option (List (Int × Int))
  match_index : Option (List (Int × Option Int))
  commit_index : Int
  has_followers : Option Bool
  voted_for : Option Int
  current_votes : Option (List (Int × Option Int))
  config : List (Int × (String × Int))
  experimental_mode : Bool
deriving DecidableEq, Repr

/-- `count_majority`: `1 + len(self.config) // 2`. -/
def count_majority (s : RaftState) : Nat := 1 + s.config.length / 2

/-- The field updates of `implement_state_change` after the role change.
The operations touch disjoint fields and read only `log`, `config` and
`identifier`, none of which they modify, so the sequential Python
assignments are modelled as one record update.  The `INITIALIZE` operation
on `commit_index` raises in Python (`none` here); the role table never
emits it. -/
def apply_operations (s : RaftState) (sc : StateChange) : Option RaftState :=
  if sc.commit_index = Operation.init then Option.none
  else some { s with
    current_term := sc.current_term,
    next_index :=
      match sc.next_index with
      | .leave => s.next_index
      | .resetToNone => Option.none
      | .init => some (s.config.map fun kv => (kv.1, (s.log.length : Int))),
    match_index :=
      match sc.match_index with
      | .leave => s.match_index
      | .resetToNone => Option.none
      | .init => some (assocSet (s.config.map fun kv => (kv.1, (Option.none : Option Int)))
          s.identifier (some ((s.log.length : Int) - 1))),
    commit_index :=
      match sc.commit_index with
      | .resetToNone => (-1 : Int)
      | _ => s.commit_index,
    has_followers :=
      match sc.has_followers with
      | .leave => s.has_followers
      | .resetToNone => Option.none
      | .init => some false,
    voted_for :=
      match sc.voted_for with
      | .leave => s.voted_for
      | .resetToNone => Option.none
      | .init => some s.identifier,
    current_votes :=
      match sc.current_votes with
      | .leave => s.current_votes
      | .resetToNone => Option.none
      | .init => some (assocSet (s.config.map fun kv => (kv.1, (Option.none : Option Int)))
          s.identifier (some s.identifier)) }

/-- `implement_state_change` from raftstate.py; the `assert
state_change["role_change"][0] == self.role` is modelled by the `none`
result on mismatch. -/
def implement_state_change (s : RaftState) (sc : StateChange) : Option RaftState :=
  match sc.role_change with
  | some (fr, tr) =>
    if fr = s.role then apply_operations { s with role := tr } sc else Option.none
  | Option.none => apply_operations s sc

/-- `handle_client_log_append` from raftstate.py.  The second component is
`none` when the call raises; the first is the state at that point (the
not-a-leader check precedes the append, the `assert` on the index maps
follows it). -/
def handle_client_log_append (s : RaftState) (_source target : Int) (item : String) :
    RaftState × Option (List Message) :=
  if s.role ≠ Role.leader then (s, Option.none)
  else
    let s1 := { s with log := s.log ++ [LogEntry.mk s.current_term item] }
    match s1.next_index, s1.match_index with
    | some ni, some mi =>
      ({ s1 with
          next_index := some (assocSet ni target (s1.log.length : Int)),
          match_index := some (assocSet mi target (some ((s1.log.length : Int) - 1))) },
       some [])
    | _, _ => (s1, Option.none)

/-- `count_null_match_index` from raftstate.py. -/
def count_null_match_index (mi : List (Int × Option Int)) : Nat :=
  (mi.filter fun p => p.2.isNone).length

/-- `get_index_metrics` from raftstate.py: sorted non-null `match_index`
values, their count, and the potential commit index at position
`majority - 1 - null_count` (or `-1` when out of range). -/
def get_index_metrics (s : RaftState) : Option (Nat × Int) :=
  match s.match_index with
  | Option.none => Option.none
  | some mi =>
    let nonNull := List.insertionSort (fun a b : Int => a ≤ b) (mi.filterMap Prod.snd)
    let median : Int := (count_majority s : Int) - 1 - (count_null_match_index mi : Int)
    let potential : Int :=
      if 0 ≤ median ∧ median < (nonNull.length : Int) then nonNull.getD median.toNat 0
      else -1
    some (nonNull.length, potential)

/-- `update_indexes` from raftstate.py: advance `next_index[target]` by
`entries_length`, set `match_index[target] = next_index[target] - 1`, then
recompute the potential commit index and adopt it when at least a majority
of `match_index` values are non-null and (unless `experimental_mode`)
`log[potential]` carries the current term.  `none` models `KeyError` /
`IndexError` / failed asserts. -/
def update_indexes (s : RaftState) (target : Int) (entries_length : Nat) :
    Option RaftState :=
  match s.next_index, s.match_index with
  | some ni, some mi =>
    match assocGet ni target with
    | Option.none => Option.none
    | some nv =>
      let s1 := { s with
        next_index := some (assocSet ni target (nv + entries_length)),
        match_index := some (assocSet mi target (some (nv + (entries_length : Int) - 1))) }
      match get_index_metrics s1 with
      | Option.none => Option.none
      | some (cnt, potential) =>
        if cnt < count_majority s1 then some s1
        else if s1.log.length = 0 then
          some (if s1.experimental_mode then { s1 with commit_index := potential } else s1)
        else
          match pyGet s1.log potential with
          | Option.none => Option.none
          | some e =>
            if e.term = s1.current_term ∨ s1.experimental_mode then
              some { s1 with commit_index := potential }
            else some s1
  | _, _ => Option.none

/-- `create_append_entries_arguments` from raftstate.py. -/
def create_append_entries_arguments (s : RaftState) (target : Int) :
    Option (Int × Int × Int × List LogEntry × Int) :=
  match s.next_index with
  | Option.none => Option.none
  | some ni =>
    match assocGet ni target with
    | Option.none => Option.none
    | some next_idx =>
      let previous_index := next_idx - 1
      if 0 < s.log.length ∧ 0 ≤ previous_index then
        match pyGet s.log previous_index with
        | Option.none => Option.none
        | some e =>
          some (s.current_term, previous_index, e.term, pySliceFrom s.log next_idx,
            s.commit_index)
      else
        some (s.current_term, previous_index, -1, pySliceFrom s.log next_idx, s.commit_index)

/-- `handle_append_entries_request` from raftstate.py. -/
def handle_append_entries_request (s : RaftState)
    (source target current_term previous_index previous_term : Int)
    (entries : List LogEntry) (commit_index : Int) : Option (RaftState × List Message) :=
  match implement_state_change s
      (enumerate_state_change .leader current_term s.role s.current_term) with
  | Option.none => Option.none
  | some s1 =>
    if s1.role ≠ .follower then
      some (s1, [.appendEntryResponse target source s1.current_term false entries.length])
    else
      match append_entries s1.log previous_index previous_term entries with
      | Option.none => Option.none
      | some (succ, log') =>
        let s2 := { s1 with log := log' }
        let s3 :=
          if s2.commit_index < commit_index then
            { s2 with commit_index := min commit_index ((log'.length : Int) - 1) }
          else s2
        some (s3, [.appendEntryResponse target source s3.current_term succ entries.length])

/-- `handle_append_entries_response` from raftstate.py. -/
def handle_append_entries_response (s : RaftState)
    (source target current_term : Int) (success : Bool) (entries_length : Nat) :
    Option (RaftState × List Message) :=
  match implement_state_change s
      (enumerate_state_change .follower current_term s.role s.current_term) with
  | Option.none => Option.none
  | some s1 =>
    if s1.role ≠ .leader then some (s1, [])
    else if success then
      match update_indexes s1 source entries_length with
      | Option.none => Option.none
      | some s2 =>
        match s2.has_followers with
        | Option.none => Option.none
        | some _ => some ({ s2 with has_followers := some true }, [])
    else
      match s1.next_index with
      | Option.none => Option.none
      | some ni =>
        match assocGet ni source with
        | Option.none => Option.none
        | some nv =>
          let s2 := { s1 with next_index := some (assocSet ni source (nv - 1)) }
          match create_append_entries_arguments s2 source with
          | Option.none => Option.none
          | some (ct, pi, pt, ents, ci) =>
            some (s2, [.appendEntryRequest target source ct pi pt ents ci])

/-- `handle_request_vote_request` from raftstate.py.  The `assert
current_term == self.current_term` in the grant path is modelled by the
`none` result (it never fires: the role table has already adopted any
higher term). -/
def handle_request_vote_request (s : RaftState)
    (source target current_term last_log_index last_log_term : Int) :
    Option (RaftState × List Message) :=
  match implement_state_change s
      (enumerate_state_change .candidate current_term s.role s.current_term) with
  | Option.none => Option.none
  | some s1 =>
    if s1.role ≠ .follower then
      some (s1, [.requestVoteResponse target source false s1.current_term])
    else if current_term < s1.current_term then
      some (s1, [.requestVoteResponse target source false s1.current_term])
    else if last_log_index < (s1.log.length : Int) - 1 then
      some (s1, [.requestVoteResponse target source false s1.current_term])
    else if (match s1.log.getLast? with
        | some e => decide (last_log_term < e.term)
        | Option.none => false) then
      some (s1, [.requestVoteResponse target source false s1.current_term])
    else if current_term = s1.current_term then
      if s1.voted_for ≠ Option.none ∧ s1.voted_for ≠ some source then
        some (s1, [.requestVoteResponse target source false s1.current_term])
      else
        let s2 := if s1.voted_for = Option.none then { s1 with voted_for := some source }
          else s1
        some (s2, [.requestVoteResponse target source true s2.current_term])
    else Option.none

/-! ### Helper lemmas about the role table and `implement_state_change` -/

/-- The role table never touches `commit_index` (§4.3: it is monotone). -/
theorem enumerate_commit_leave (orole : Role) (oterm : Int) (r : Role) (own : Int) :
    (enumerate_state_change orole oterm r own).commit_index = Operation.leave := by
  cases orole <;> simp [enumerate_state_change] <;> split_ifs <;> rfl

/-- A successful `implement_state_change` installs the table's term. -/
theorem implement_current_term (s : RaftState) (sc : StateChange) (s1 : RaftState)
    (h : implement_state_change s sc = some s1) : s1.current_term = sc.current_term := by
  unfold implement_state_change at h
  have hmain : ∀ t : RaftState, apply_operations t sc = some s1 →
      s1.current_term = sc.current_term := by
    intro t ht
    unfold apply_operations at ht
    by_cases hc : sc.commit_index = Operation.init
    · simp [hc] at ht
    · rw [if_neg hc, Option.some.injEq] at ht
      rw [← ht]
  cases hrc : sc.role_change with
  | none => rw [hrc] at h; exact hmain s h
  | some p =>
    obtain ⟨fr, tr⟩ := p
    by_cases hfr : fr = s.role
    · simp only [hrc, if_pos hfr] at h; exact hmain _ h
    · simp only [hrc, if_neg hfr] at h
      exact Option.noConfusion h

/-- A successful `implement_state_change` leaves `commit_index` alone when
the table says `LEAVE`. -/
theorem implement_commit_of_leave (s : RaftState) (sc : StateChange) (s1 : RaftState)
    (hc : sc.commit_index = Operation.leave)
    (h : implement_state_change s sc = some s1) : s1.commit_index = s.commit_index := by
  unfold implement_state_change at h
  have hmain : ∀ t : RaftState, t.commit_index = s.commit_index →
      apply_operations t sc = some s1 → s1.commit_index = s.commit_index := by
    intro t htc ht
    unfold apply_operations at ht
    rw [hc] at ht
    rw [if_neg (by simp), Option.some.injEq] at ht
    rw [← ht]
    exact htc
  cases hrc : sc.role_change with
  | none => rw [hrc] at h; exact hmain s rfl h
  | some p =>
    obtain ⟨fr, tr⟩ := p
    by_cases hfr : fr = s.role
    · simp only [hrc, if_pos hfr] at h
      exact hmain { s with role := tr } rfl h
    · simp only [hrc, if_neg hfr] at h
      exact Option.noConfusion h

/-- Any state change drawn from the role table preserves `commit_index`. -/
theorem table_commit_eq (s : RaftState) (orole : Role) (oterm : Int) (s1 : RaftState)
    (h : implement_state_change s
      (enumerate_state_change orole oterm s.role s.current_term) = some s1) :
    s1.commit_index = s.commit_index :=
  implement_commit_of_leave s _ s1 (enumerate_commit_leave ..) h

/-- The table's term for a real observed candidate: adopt the higher term. -/
theorem enumerate_candidate_term (ct : Int) (r : Role) (own : Int) :
    (enumerate_state_change .candidate ct r own).current_term =
      if own < ct then ct else own := by
  simp [enumerate_state_change]
  split_ifs <;> rfl

/-! ### C8: client log append -/

/-- C8: `handle_client_log_append` on a non-leader raises before mutating
anything; on a leader whose index maps are initialised (they are whenever a
node holds leadership) and addressed at the node itself, it appends
`(current_term, item)`, sets `next_index[self] = len(log)` and
`match_index[self] = len(log) - 1` for the new length, and emits no
messages. -/
theorem C8_client_append (s : RaftState) (src tgt : Int) (item : String) :
    (s.role ≠ Role.leader → handle_client_log_append s src tgt item = (s, Option.none)) ∧
    (∀ ni mi, s.role = Role.leader → tgt = s.identifier →
      s.next_index = some ni → s.match_index = some mi →
      handle_client_log_append s src tgt item =
        ({ s with
            log := s.log ++ [LogEntry.mk s.current_term item],
            next_index := some (assocSet ni s.identifier ((s.log.length : Int) + 1)),
            match_index := some (assocSet mi s.identifier (some (s.log.length : Int))) },
          some [])) := by
  constructor
  · intro hr
    unfold handle_client_log_append
    rw [if_pos hr]
  · intro ni mi hr htgt hni hmi
    unfold handle_client_log_append
    rw [if_neg (by simp [hr])]
    simp only [hni, hmi, htgt]
    have hlen : ((s.log ++ [LogEntry.mk s.current_term item]).length : Int) =
        (s.log.length : Int) + 1 := by
      simp [List.length_append]
    rw [hlen]
    have hlen1 : ((s.log.length : Int) + 1) - 1 = (s.log.length : Int) := by omega
    rw [hlen1]

/-- Witness for C8: a three-node leader with one entry appends `x`; a
follower with the same fields refuses and is returned untouched. -/
theorem C8_client_append_witness :
    handle_client_log_append
      { identifier := 1, log := [LogEntry.mk 6 "a"], role := Role.leader,
        current_term := 6, next_index := some [(1, 2), (2, 1), (3, 1)],
        match_index := some [(1, some 1), (2, Option.none), (3, Option.none)],
        commit_index := -1, has_followers := some false, voted_for := some 1,
        current_votes := Option.none,
        config := [(1, ("localhost", 8000)), (2, ("localhost", 8001)), (3, ("localhost", 8002))],
        experimental_mode := false } 1 1 "x" =
      ({ identifier := 1, log := [LogEntry.mk 6 "a", LogEntry.mk 6 "x"],
          role := Role.leader,
          current_term := 6, next_index := some [(1, 2), (2, 1), (3, 1)],
          match_index := some [(1, some 1), (2, Option.none), (3, Option.none)],
          commit_index := -1, has_followers := some false, voted_for := some 1,
          current_votes := Option.none,
          config := [(1, ("localhost", 8000)), (2, ("localhost", 8001)), (3, ("localhost", 8002))],
          experimental_mode := false }, some []) ∧
    handle_client_log_append
      { identifier := 2, log := [], role := Role.follower, current_term := 0,
        next_index := Option.none, match_index := Option.none, commit_index := -1,
        has_followers := Option.none, voted_for := Option.none, current_votes := Option.none,
        config := [(1, ("localhost", 8000)), (2, ("localhost", 8001)), (3, ("localhost", 8002))],
        experimental_mode := false } 9 2 "x" =
      ({ identifier := 2, log := [], role := Role.follower, current_term := 0,
          next_index := Option.none, match_index := Option.none, commit_index := -1,
          has_followers := Option.none, voted_for := Option.none, current_votes := Option.none,
          config := [(1, ("localhost", 8000)), (2, ("localhost", 8001)), (3, ("localhost", 8002))],
          experimental_mode := false }, Option.none) := by
  constructor
  · have h := (C8_client_append
      { identifier := 1, log := [LogEntry.mk 6 "a"], role := Role.leader,
        current_term := 6, next_index := some [(1, 2), (2, 1), (3, 1)],
        match_index := some [(1, some 1), (2, Option.none), (3, Option.none)],
        commit_index := -1, has_followers := some false, voted_for := some 1,
        current_votes := Option.none,
        config := [(1, ("localhost", 8000)), (2, ("localhost", 8001)), (3, ("localhost", 8002))],
        experimental_mode := false } 1 1 "x").2
      [(1, 2), (2, 1), (3, 1)] [(1, some 1), (2, Option.none), (3, Option.none)]
      rfl rfl rfl rfl
    rw [h]
    decide
  · exact (C8_client_append _ 9 2 "x").1 (by decide)

/-! ### C7: commit monotonicity -/

/-- A follower whose commit index decreases: the node has committed up to
index 1, but a request from a higher-term leader truncates its log to a
single entry, and `min(leader_commit, len(log) - 1)` then drags
`commit_index` down to 0. -/
def c7bad : RaftState :=
  { identifier := 2, log := [LogEntry.mk 1 "a", LogEntry.mk 1 "b"], role := Role.follower,
    current_term := 1, next_index := Option.none, match_index := Option.none,
    commit_index := 1, has_followers := Option.none, voted_for := Option.none,
    current_votes := Option.none,
    config := [(1, ("localhost", 8000)), (2, ("localhost", 8001)), (3, ("localhost", 8002))],
    experimental_mode := false }

/-- Counterexample to C7: handling an `AppendEntryRequest` (term 2,
`previous_index = -1`, one entry of term 2, `leader_commit = 5`) on
`c7bad` truncates the log and moves `commit_index` from 1 down to 0. -/
theorem C7_counterexample :
    c7bad.commit_index = 1 ∧
    handle_append_entries_request c7bad 1 2 2 (-1) (-1) [LogEntry.mk 2 "x"] 5 =
      some ({ c7bad with current_term := 2, log := [LogEntry.mk 2 "x"], commit_index := 0 },
        [Message.appendEntryResponse 2 1 2 true 1]) := by
  constructor
  · rfl
  · decide

/-- C7 (amended): `commit_index` survives every role-table transition
unchanged, and the follower-side update in `handle_append_entries_request`
never decreases it as long as the previous commit point still lies inside
the post-append log. -/
theorem C7_commit_monotone :
    (∀ (s : RaftState) (orole : Role) (oterm : Int) (s1 : RaftState),
      implement_state_change s
        (enumerate_state_change orole oterm s.role s.current_term) = some s1 →
      s1.commit_index = s.commit_index) ∧
    (∀ (s : RaftState) (source target ct pi pt : Int) (entries : List LogEntry)
      (ci : Int) (s2 : RaftState) (msgs : List Message),
      handle_append_entries_request s source target ct pi pt entries ci = some (s2, msgs) →
      s.commit_index ≤ (s2.log.length : Int) - 1 →
      s.commit_index ≤ s2.commit_index) := by
  constructor
  · exact fun s orole oterm s1 h => table_commit_eq s orole oterm s1 h
  · intro s source target ct pi pt entries ci s2 msgs h hle
    unfold handle_append_entries_request at h
    cases himp : implement_state_change s
        (enumerate_state_change .leader ct s.role s.current_term) with
    | none => simp only [himp] at h; exact Option.noConfusion h
    | some s1 =>
      simp only [himp] at h
      have hcommit : s1.commit_index = s.commit_index := table_commit_eq _ _ _ _ himp
      by_cases hrole : s1.role ≠ Role.follower
      · rw [if_pos hrole, Option.some.injEq, Prod.mk.injEq] at h
        rw [← h.1]
        omega
      · rw [if_neg hrole] at h
        cases happ : append_entries s1.log pi pt entries with
        | none => simp only [happ] at h; exact Option.noConfusion h
        | some p =>
          obtain ⟨succ, log2⟩ := p
          simp only [happ, Option.some.injEq, Prod.mk.injEq] at h
          obtain ⟨h1, h2⟩ := h
          by_cases hci : s1.commit_index < ci
          · rw [if_pos (show ({ s1 with log := log2 } : RaftState).commit_index < ci
                from hci)] at h1
            rw [← h1] at hle ⊢
            simp only at hle ⊢
            omega
          · rw [if_neg (show ¬ ({ s1 with log := log2 } : RaftState).commit_index < ci
                from hci)] at h1
            rw [← h1]
            simp only
            omega

/-- A follower that has voted and committed up to index 7. -/
def c7w1 : RaftState :=
  { identifier := 1, log := [LogEntry.mk 1 "a"], role := Role.follower, current_term := 1,
    next_index := Option.none, match_index := Option.none, commit_index := 7,
    has_followers := Option.none, voted_for := some 3, current_votes := Option.none,
    config := [(1, ("localhost", 8000)), (2, ("localhost", 8001)), (3, ("localhost", 8002))],
    experimental_mode := false }

/-- A follower with one committed entry receiving a same-term heartbeat. -/
def c7w2 : RaftState :=
  { identifier := 2, log := [LogEntry.mk 1 "a"], role := Role.follower, current_term := 1,
    next_index := Option.none, match_index := Option.none, commit_index := 0,
    has_followers := Option.none, voted_for := Option.none, current_votes := Option.none,
    config := [(1, ("localhost", 8000)), (2, ("localhost", 8001)), (3, ("localhost", 8002))],
    experimental_mode := false }

/-- Witness for C7: a role-table step (observing a term-5 candidate) keeps
`commit_index` at 7, and a same-term heartbeat leaves a follower's
`commit_index` at 0. -/
theorem C7_commit_monotone_witness :
    ({ c7w1 with current_term := 5, voted_for := Option.none } : RaftState).commit_index =
      c7w1.commit_index ∧
    c7w2.commit_index ≤ c7w2.commit_index := by
  constructor
  · exact C7_commit_monotone.1 c7w1 .candidate 5
      { c7w1 with current_term := 5, voted_for := Option.none } (by decide)
  · exact C7_commit_monotone.2 c7w2 1 2 1 0 1 [] 0 c7w2
      [Message.appendEntryResponse 2 1 1 true 0] (by decide) (by decide)

/-! ### C2: the vote-granting rule -/

/-- The condition the code's elif-chain actually tests on a post-table
Follower: the candidate's term is at least ours, its last log index is at
least `len(log) - 1`, its last log term is at least our last entry's term
(vacuous on an empty log), and we have not voted for anyone else.  Note the
index comparison is required unconditionally, not only at equal last
terms. -/
def vote_granted (s1 : RaftState) (source current_term last_log_index last_log_term : Int) :
    Bool :=
  decide (s1.current_term ≤ current_term) &&
  decide ((s1.log.length : Int) - 1 ≤ last_log_index) &&
  (match s1.log.getLast? with
   | some e => decide (e.term ≤ last_log_term)
   | Option.none => true) &&
  (decide (s1.voted_for = Option.none) || decide (s1.voted_for = some source))

/-- A two-entry follower about to receive a vote request from a candidate
with a shorter but higher-termed log. -/
def c2bad : RaftState :=
  { identifier := 2, log := [LogEntry.mk 1 "a", LogEntry.mk 1 "b"], role := Role.follower,
    current_term := 2, next_index := Option.none, match_index := Option.none,
    commit_index := -1, has_followers := Option.none, voted_for := Option.none,
    current_votes := Option.none,
    config := [(1, ("localhost", 8000)), (2, ("localhost", 8001)), (3, ("localhost", 8002))],
    experimental_mode := false }

/-- Counterexample to C2: the request has term 2 ≥ `current_term`, its
`last_log_term` 5 strictly exceeds the node's last log term 1 (so the
candidate's log is more up-to-date under the claim's disjunction), and
`voted_for` is `None` — yet the code answers `success = false`, because it
requires `last_log_index ≥ len(log) - 1` even when the candidate's last
term is strictly greater. -/
theorem C2_counterexample :
    c2bad.current_term ≤ 2 ∧
    c2bad.log.getLast? = some (LogEntry.mk 1 "b") ∧ (1 : Int) < 5 ∧
    c2bad.voted_for = Option.none ∧
    handle_request_vote_request c2bad 1 2 2 0 5 =
      some (c2bad, [Message.requestVoteResponse 2 1 false 2]) := by
  refine ⟨by decide, by decide, by decide, by decide, ?_⟩
  decide

/-- C2 (amended): on a post-table Follower the vote is granted iff
`vote_granted` holds — the code checks `last_log_index ≥ len(log) - 1`
unconditionally rather than the claim's up-to-date disjunction — and a
granted vote records the candidate in `voted_for`. -/
theorem C2_vote_rule (s : RaftState) (source target ct lli llt : Int) (s1 : RaftState)
    (htab : implement_state_change s
      (enumerate_state_change .candidate ct s.role s.current_term) = some s1)
    (hrole : s1.role = Role.follower) :
    handle_request_vote_request s source target ct lli llt =
      some (if vote_granted s1 source ct lli llt = true
        then ({ s1 with voted_for := some source },
          [Message.requestVoteResponse target source true s1.current_term])
        else (s1, [Message.requestVoteResponse target source false s1.current_term])) := by
  have hterm : s1.current_term = if s.current_term < ct then ct else s.current_term := by
    rw [implement_current_term s _ s1 htab, enumerate_candidate_term]
  have hkey : ¬ ct < s1.current_term → ct = s1.current_term := by
    intro hlt
    rcases lt_or_ge s.current_term ct with hx | hx
    · rw [hterm, if_pos hx]
    · rw [hterm, if_neg (not_lt.mpr hx)] at hlt ⊢
      omega
  unfold handle_request_vote_request
  simp only [htab]
  rw [if_neg (by simp [hrole])]
  by_cases h1 : ct < s1.current_term
  · rw [if_pos h1]
    have hg : ¬ vote_granted s1 source ct lli llt = true := by
      unfold vote_granted
      simp only [Bool.and_eq_true, decide_eq_true_eq]
      intro hcontra
      exact absurd hcontra.1.1.1 (by omega)
    rw [if_neg hg]
  · rw [if_neg h1]
    by_cases h2 : lli < (s1.log.length : Int) - 1
    · rw [if_pos h2]
      have hg : ¬ vote_granted s1 source ct lli llt = true := by
        unfold vote_granted
        simp only [Bool.and_eq_true, decide_eq_true_eq]
        intro hcontra
        exact absurd hcontra.1.1.2 (by omega)
      rw [if_neg hg]
    · rw [if_neg h2]
      have hEq := hkey h1
      cases hl : s1.log.getLast? with
      | some e =>
        by_cases h3 : llt < e.term
        · simp only [hl]
          rw [if_pos (by simp [h3])]
          have hg : ¬ vote_granted s1 source ct lli llt = true := by
            unfold vote_granted
            simp only [hl, Bool.and_eq_true, decide_eq_true_eq]
            intro hcontra
            exact absurd hcontra.1.2 (by omega)
          rw [if_neg hg]
        · simp only [hl]
          rw [if_neg (by simp [h3]), if_pos hEq]
          by_cases h4 : s1.voted_for ≠ Option.none ∧ s1.voted_for ≠ some source
          · rw [if_pos h4]
            have hg : ¬ vote_granted s1 source ct lli llt = true := by
              unfold vote_granted
              simp only [hl, Bool.and_eq_true, Bool.or_eq_true, decide_eq_true_eq]
              intro hcontra
              rcases hcontra.2 with hc | hc
              · exact absurd hc h4.1
              · exact absurd hc h4.2
            rw [if_neg hg]
          · rw [if_neg h4]
            have hg : vote_granted s1 source ct lli llt = true := by
              unfold vote_granted
              simp only [hl, Bool.and_eq_true, Bool.or_eq_true, decide_eq_true_eq]
              refine ⟨⟨⟨by omega, by omega⟩, by omega⟩, ?_⟩
              rcases not_and_or.mp h4 with hc | hc
              · exact Or.inl (not_not.mp hc)
              · exact Or.inr (not_not.mp hc)
            rw [if_pos hg]
            by_cases hv : s1.voted_for = Option.none
            · rw [if_pos hv]
            · rw [if_neg hv]
              have hvs : s1.voted_for = some source := by
                rcases not_and_or.mp h4 with hc | hc
                · exact absurd (not_not.mp hc) hv
                · exact not_not.mp hc
              rw [show ({ s1 with voted_for := some source } : RaftState) = s1 from by
                rw [← hvs]]
      | none =>
        simp only [hl]
        rw [if_neg (by simp), if_pos hEq]
        by_cases h4 : s1.voted_for ≠ Option.none ∧ s1.voted_for ≠ some source
        · rw [if_pos h4]
          have hg : ¬ vote_granted s1 source ct lli llt = true := by
            unfold vote_granted
            simp only [hl, Bool.and_eq_true, Bool.or_eq_true, decide_eq_true_eq]
            intro hcontra
            rcases hcontra.2 with hc | hc
            · exact absurd hc h4.1
            · exact absurd hc h4.2
          rw [if_neg hg]
        · rw [if_neg h4]
          have hg : vote_granted s1 source ct lli llt = true := by
            unfold vote_granted
            simp only [hl, Bool.and_eq_true, Bool.or_eq_true, decide_eq_true_eq]
            refine ⟨⟨⟨by omega, by omega⟩, trivial⟩, ?_⟩
            rcases not_and_or.mp h4 with hc | hc
            · exact Or.inl (not_not.mp hc)
            · exact Or.inr (not_not.mp hc)
          rw [if_pos hg]
          by_cases hv : s1.voted_for = Option.none
          · rw [if_pos hv]
          · rw [if_neg hv]
            have hvs : s1.voted_for = some source := by
              rcases not_and_or.mp h4 with hc | hc
              · exact absurd (not_not.mp hc) hv
              · exact not_not.mp hc
            rw [show ({ s1 with voted_for := some source } : RaftState) = s1 from by
              rw [← hvs]]

/-- A single-entry follower at term 3 that has not voted yet. -/
def c2good : RaftState :=
  { identifier := 2, log := [LogEntry.mk 1 "a"], role := Role.follower, current_term := 3,
    next_index := Option.none, match_index := Option.none, commit_index := -1,
    has_followers := Option.none, voted_for := Option.none, current_votes := Option.none,
    config := [(1, ("localhost", 8000)), (2, ("localhost", 8001)), (3, ("localhost", 8002))],
    experimental_mode := false }

/-- Witness for C2: a term-3 request from candidate 1 with a matching log
is granted and recorded in `voted_for`. -/
theorem C2_vote_rule_witness :
    handle_request_vote_request c2good 1 2 3 0 1 =
      some ({ c2good with voted_for := some 1 },
        [Message.requestVoteResponse 2 1 true 3]) := by
  have h := C2_vote_rule c2good 1 2 3 0 1 c2good (by decide) rfl
  rw [h]
  decide

/-! ### C3: leader bookkeeping on a successful append response -/

/-- Overwriting a present key preserves the dict's size. -/
theorem assocSet_length_of_get {β : Type} (l : List (Int × β)) (k : Int) (v : β)
    (h : assocGet l k ≠ Option.none) : (assocSet l k v).length = l.length := by
  induction l with
  | nil => simp [assocGet] at h
  | cons hd tl ih =>
    obtain ⟨k0, v0⟩ := hd
    unfold assocGet at h
    unfold assocSet
    by_cases hk : k0 = k
    · rw [if_pos hk]
      simp
    · rw [if_neg hk]
      rw [if_neg hk] at h
      simp [ih h]

/-- Null and non-null values of an optional-valued dict partition it. -/
theorem filter_isNone_add_filterMap {α β : Type} (l : List (α × Option β)) :
    (l.filter fun p => p.2.isNone).length + (l.filterMap Prod.snd).length = l.length := by
  induction l with
  | nil => simp
  | cons hd tl ih =>
    obtain ⟨a, ob⟩ := hd
    cases ob with
    | none =>
      simp [List.filter_cons, List.filterMap_cons]
      omega
    | some b =>
      simp [List.filter_cons, List.filterMap_cons]
      omega

/-- The claim's count of non-null `match_index` values. -/
def claim_nonnull_count (mi : List (Int × Option Int)) : Nat :=
  (mi.filterMap Prod.snd).length

/-- The claim's potential commit index: sort the non-null `match_index`
values ascending and take the value at position
`majority - 1 - null_count`, or `-1` when that position is out of range. -/
def claim_potential (majority : Nat) (mi : List (Int × Option Int)) : Int :=
  let nonNull := List.insertionSort (fun a b : Int => a ≤ b) (mi.filterMap Prod.snd)
  let pos : Int := (majority : Int) - 1 - ((mi.filter fun p => p.2.isNone).length : Int)
  if 0 ≤ pos ∧ pos < (nonNull.length : Int) then nonNull.getD pos.toNat 0 else -1

/-- Characterisation of `update_indexes` on a well-formed leader: the maps
are advanced for `target`, and `commit_index` becomes the claim's potential
commit index exactly when a majority of `match_index` values are non-null
and the log entry there carries the current term. -/
theorem update_indexes_char (s1 : RaftState) (source : Int) (el : Nat)
    (ni : List (Int × Int)) (mi : List (Int × Option Int)) (nv : Int)
    (hexp : s1.experimental_mode = false)
    (hni : s1.next_index = some ni)
    (hmi : s1.match_index = some mi)
    (hnv : assocGet ni source = some nv)
    (hkey : assocGet mi source ≠ Option.none)
    (hsz : mi.length = s1.config.length)
    (hrange : ∀ p ∈ assocSet mi source (some (nv + (el : Int) - 1)), ∀ v : Int,
      p.2 = some v → 0 ≤ v ∧ v < (s1.log.length : Int)) :
    update_indexes s1 source el =
      some { s1 with
        next_index := some (assocSet ni source (nv + (el : Int))),
        match_index := some (assocSet mi source (some (nv + (el : Int) - 1))),
        commit_index :=
          if count_majority s1 ≤
              claim_nonnull_count (assocSet mi source (some (nv + (el : Int) - 1))) ∧
            (s1.log[(claim_potential (count_majority s1)
                (assocSet mi source (some (nv + (el : Int) - 1)))).toNat]?).map
              LogEntry.term = some s1.current_term
          then claim_potential (count_majority s1)
            (assocSet mi source (some (nv + (el : Int) - 1)))
          else s1.commit_index } := by
  have hmaj : count_majority s1 = 1 + s1.config.length / 2 := rfl
  have hmiPlen : (assocSet mi source (some (nv + (el : Int) - 1))).length = mi.length :=
    assocSet_length_of_get mi source _ hkey
  have hsplitlen :
      ((assocSet mi source (some (nv + (el : Int) - 1))).filter
        fun p => p.2.isNone).length +
      ((assocSet mi source (some (nv + (el : Int) - 1))).filterMap Prod.snd).length =
      (assocSet mi source (some (nv + (el : Int) - 1))).length :=
    filter_isNone_add_filterMap _
  have hperm := List.perm_insertionSort (fun a b : Int => a ≤ b)
    ((assocSet mi source (some (nv + (el : Int) - 1))).filterMap Prod.snd)
  have hslen := hperm.length_eq
  have hgim : get_index_metrics
      { s1 with
        next_index := some (assocSet ni source (nv + (el : Int))),
        match_index := some (assocSet mi source (some (nv + (el : Int) - 1))) } =
      some ((List.insertionSort (fun a b : Int => a ≤ b)
          ((assocSet mi source (some (nv + (el : Int) - 1))).filterMap Prod.snd)).length,
        claim_potential (count_majority s1)
          (assocSet mi source (some (nv + (el : Int) - 1)))) := rfl
  unfold update_indexes
  simp only [hni, hmi, hnv, hgim]
  split
  · next hlt =>
    rw [if_neg (by
      intro hand
      have hA := hand.1
      unfold claim_nonnull_count at hA
      have hcm : count_majority
          { s1 with
            next_index := some (assocSet ni source (nv + (el : Int))),
            match_index := some (assocSet mi source (some (nv + (el : Int) - 1))) } =
          count_majority s1 := rfl
      rw [hcm] at hlt
      omega)]
  · next hge =>
    have hcm : count_majority
        { s1 with
          next_index := some (assocSet ni source (nv + (el : Int))),
          match_index := some (assocSet mi source (some (nv + (el : Int) - 1))) } =
        count_majority s1 := rfl
    rw [hcm] at hge
    have hge' : count_majority s1 ≤
        (List.insertionSort (fun a b : Int => a ≤ b)
          ((assocSet mi source (some (nv + (el : Int) - 1))).filterMap Prod.snd)).length := by
      omega
    have hposIn : 0 ≤ (count_majority s1 : Int) - 1 -
        (((assocSet mi source (some (nv + (el : Int) - 1))).filter
          fun p => p.2.isNone).length : Int) ∧
        (count_majority s1 : Int) - 1 -
          (((assocSet mi source (some (nv + (el : Int) - 1))).filter
            fun p => p.2.isNone).length : Int) <
        ((List.insertionSort (fun a b : Int => a ≤ b)
          ((assocSet mi source (some (nv + (el : Int) - 1))).filterMap Prod.snd)).length : Int) := by
      omega
    have hpot : claim_potential (count_majority s1)
        (assocSet mi source (some (nv + (el : Int) - 1))) =
        (List.insertionSort (fun a b : Int => a ≤ b)
          ((assocSet mi source (some (nv + (el : Int) - 1))).filterMap Prod.snd)).getD
          ((count_majority s1 : Int) - 1 -
            (((assocSet mi source (some (nv + (el : Int) - 1))).filter
              fun p => p.2.isNone).length : Int)).toNat 0 := by
      unfold claim_potential
      rw [if_pos hposIn]
    have hidx : ((count_majority s1 : Int) - 1 -
        (((assocSet mi source (some (nv + (el : Int) - 1))).filter
          fun p => p.2.isNone).length : Int)).toNat <
        (List.insertionSort (fun a b : Int => a ≤ b)
          ((assocSet mi source (some (nv + (el : Int) - 1))).filterMap Prod.snd)).length := by
      omega
    have hmem : claim_potential (count_majority s1)
        (assocSet mi source (some (nv + (el : Int) - 1))) ∈
        (assocSet mi source (some (nv + (el : Int) - 1))).filterMap Prod.snd := by
      rw [hpot, List.getD_eq_getElem _ 0 hidx]
      exact hperm.subset (List.getElem_mem hidx)
    obtain ⟨p, hpmem, hpsnd⟩ := List.mem_filterMap.mp hmem
    obtain ⟨hmlo, hmhi⟩ := hrange p hpmem _ hpsnd
    have hidx2 : (claim_potential (count_majority s1)
        (assocSet mi source (some (nv + (el : Int) - 1)))).toNat < s1.log.length := by
      omega
    have hpy : pyGet s1.log (claim_potential (count_majority s1)
        (assocSet mi source (some (nv + (el : Int) - 1)))) =
        some (s1.log.get ⟨(claim_potential (count_majority s1)
          (assocSet mi source (some (nv + (el : Int) - 1)))).toNat, hidx2⟩) := by
      unfold pyGet
      rw [if_pos hmlo]
      exact List.getElem?_eq_getElem hidx2
    split
    · next hlen0 =>
      exact absurd (show s1.log.length = 0 from hlen0) (by omega)
    · next hlen0 =>
      simp only [hpy]
      split
      · next hcond =>
        have hterm : (s1.log.get ⟨(claim_potential (count_majority s1)
            (assocSet mi source (some (nv + (el : Int) - 1)))).toNat, hidx2⟩).term =
            s1.current_term := by
          rcases hcond with hc | hc
          · exact hc
          · exact absurd (show s1.experimental_mode = true from hc) (by rw [hexp]; simp)
        rw [if_pos ⟨by unfold claim_nonnull_count; omega, by
          rw [List.getElem?_eq_getElem hidx2]
          simp only [Option.map_some']
          rw [show s1.log[(claim_potential (count_majority s1)
            (assocSet mi source (some (nv + (el : Int) - 1)))).toNat] =
            s1.log.get ⟨(claim_potential (count_majority s1)
              (assocSet mi source (some (nv + (el : Int) - 1)))).toNat, hidx2⟩ from rfl]
          rw [hterm]⟩]
      · next hcond =>
        rw [if_neg (by
          intro hand
          have hB := hand.2
          rw [List.getElem?_eq_getElem hidx2] at hB
          simp only [Option.map_some', Option.some.injEq] at hB
          exact hcond (Or.inl hB))]

/-- C3: on a post-table Leader with `experimental_mode` off, a successful
append response advances `next_index[source]` by `entries_length`, sets
`match_index[source]` to the new `next_index[source] - 1`, records
`has_followers = true`, and moves `commit_index` to the claim's potential
commit index `m` (the sorted non-null `match_index` value at position
`majority - 1 - null_count`) exactly when a majority of `match_index`
values are non-null and `log[m].term` equals `current_term`.  The
well-formedness hypotheses say the maps exist, `source` is tracked in both,
`match_index` spans the cluster, `has_followers` is set, and every non-null
match value after the update is a valid log index. -/
theorem C3_successful_response_updates (s : RaftState) (source target ct : Int)
    (el : Nat) (s1 : RaftState)
    (ni : List (Int × Int)) (mi : List (Int × Option Int)) (nv : Int)
    (htab : implement_state_change s
      (enumerate_state_change .follower ct s.role s.current_term) = some s1)
    (hrole : s1.role = Role.leader)
    (hexp : s1.experimental_mode = false)
    (hni : s1.next_index = some ni)
    (hmi : s1.match_index = some mi)
    (hnv : assocGet ni source = some nv)
    (hkey : assocGet mi source ≠ Option.none)
    (hsz : mi.length = s1.config.length)
    (hhf : s1.has_followers ≠ Option.none)
    (hrange : ∀ p ∈ assocSet mi source (some (nv + (el : Int) - 1)), ∀ v : Int,
      p.2 = some v → 0 ≤ v ∧ v < (s1.log.length : Int)) :
    handle_append_entries_response s source target ct true el =
      some ({ s1 with
        next_index := some (assocSet ni source (nv + (el : Int))),
        match_index := some (assocSet mi source (some (nv + (el : Int) - 1))),
        commit_index :=
          if count_majority s1 ≤
              claim_nonnull_count (assocSet mi source (some (nv + (el : Int) - 1))) ∧
            (s1.log[(claim_potential (count_majority s1)
                (assocSet mi source (some (nv + (el : Int) - 1)))).toNat]?).map
              LogEntry.term = some s1.current_term
          then claim_potential (count_majority s1)
            (assocSet mi source (some (nv + (el : Int) - 1)))
          else s1.commit_index,
        has_followers := some true }, []) := by
  unfold handle_append_entries_response
  simp only [htab]
  rw [if_neg (by simp [hrole]), if_pos trivial]
  rw [update_indexes_char s1 source el ni mi nv hexp hni hmi hnv hkey hsz hrange]
  cases hf : s1.has_followers with
  | none => exact absurd hf hhf
  | some b => simp only [hf]

/-- A three-node leader at term 6: one own entry, follower 2's match still
unknown, about to process follower 2's successful heartbeat response. -/
def c3lead : RaftState :=
  { identifier := 1, log := [LogEntry.mk 6 "x"], role := Role.leader, current_term := 6,
    next_index := some [(1, 1), (2, 1), (3, 1)],
    match_index := some [(1, some 0), (2, Option.none), (3, Option.none)],
    commit_index := -1, has_followers := some false, voted_for := some 1,
    current_votes := Option.none,
    config := [(1, ("localhost", 8000)), (2, ("localhost", 8001)), (3, ("localhost", 8002))],
    experimental_mode := false }

/-- Witness for C3: follower 2's successful empty-append response makes its
match index 0, reaching a majority at the leader's own term, so
`commit_index` advances from `-1` to `0`. -/
theorem C3_successful_response_updates_witness :
    handle_append_entries_response c3lead 2 1 6 true 0 =
      some ({ c3lead with
        next_index := some [(1, 1), (2, 1), (3, 1)],
        match_index := some [(1, some 0), (2, some 0), (3, Option.none)],
        commit_index := 0,
        has_followers := some true }, []) := by
  have h := C3_successful_response_updates c3lead 2 1 6 0 c3lead
    [(1, 1), (2, 1), (3, 1)] [(1, some 0), (2, Option.none), (3, Option.none)] 1
    (by decide) rfl rfl rfl rfl (by decide) (by decide) rfl (by decide)
    (by intro p hp v hv; fin_cases hp <;> simp_all [c3lead] <;> omega)
  rw [h]
  decide

